import Mathlib

/-!
Verification of the time-series reconciliation core of `scripts/merge_inputs.py`.

A pandas DataFrame is modelled as a `Table`: a list of column names together
with a list of rows, each row a list of cell values.  A cell value (`Val`) is
either missing (`na`, modelling NaN), a number (`num`, modelling the float
columns by an exact rational), a text value (`str`), or a calendar date
(`date`, modelling a pandas Timestamp by its day number: day 0 is 1970-01-01,
a Thursday, so that the pandas `weekday` convention Monday = 0 puts day 4,
1970-01-05, on a Monday).  The `YYYY-MM-DD` string codec applied by
`strftime` / `to_datetime` is an order-preserving bijection between canonical
date strings and day numbers, so it is modelled by keeping the day-number
representation; date-string parsing of other shapes is modelled by a simple
decimal day-number parser, which is orthogonal to every claim checked here.

Fallible pandas operations (raising `ValueError` / `KeyError`) are modelled
with `Option` / `Except`: a `none` result corresponds to the Python code
raising.
-/

namespace Meridian

/-- A cell of a DataFrame. -/
inductive Val where
  | na : Val
  | num (q : ℚ) : Val
  | str (s : String) : Val
  | date (d : ℤ) : Val
deriving DecidableEq, Repr

/-- A DataFrame: named columns and rows of cells (row i, column j is
`rows[i][j]`, the column named `cols[j]`). -/
structure Table where
  cols : List String
  rows : List (List Val)
deriving DecidableEq, Repr

/-- Cell of a row at a column index (missing cells read as `na`). -/
def cellAt (i : Nat) (r : List Val) : Val := r.getD i Val.na

/-- Day number stored in a cell (only used on cells known to hold dates). -/
def toDateZ : Val → ℤ
  | .date d => d
  | _ => 0

/-- First occurrences of each value of a list, in order of first appearance
(`seen` accumulates the values already emitted): the semantics of
`pandas.Series.unique` and of the distinct group keys of `groupby`. -/
def uniqueFirstAux {α : Type} [DecidableEq α] (seen : List α) : List α → List α
  | [] => []
  | x :: xs =>
      if x ∈ seen then uniqueFirstAux seen xs
      else x :: uniqueFirstAux (x :: seen) xs

/-- `pandas.Series.unique`: distinct values in order of first appearance. -/
def uniqueFirst {α : Type} [DecidableEq α] (l : List α) : List α := uniqueFirstAux [] l

/-- Insert into a list sorted by the boolean comparator `le`. -/
def orderedInsertB (le : α → α → Bool) (x : α) : List α → List α
  | [] => [x]
  | y :: ys => if le x y then x :: y :: ys else y :: orderedInsertB le x ys

/-- Insertion sort by a boolean comparator (models the sorts performed by
`Series.sort_values` and `Series.mode`). -/
def insertionSortB (le : α → α → Bool) : List α → List α
  | [] => []
  | x :: xs => orderedInsertB le x (insertionSortB le xs)

/-- Comparator for day numbers. -/
def intLeB (a b : ℤ) : Bool := decide (a ≤ b)

/-- `pandas.Series.mode`: the distinct values attaining the maximal number of
occurrences, sorted ascending; empty exactly when the series is empty. -/
def modeList (l : List ℤ) : List ℤ :=
  let maxCount := (l.map (fun x => l.count x)).foldr max 0
  insertionSortB intLeB ((l.filter (fun x => l.count x = maxCount)).dedup)

/-- The day differences between consecutive sorted dates:
`times.sort_values().diff().dropna().dt.days` of the source. -/
def sortedDiffs (times : List ℤ) : List ℤ :=
  let ts := insertionSortB intLeB times
  List.zipWith (fun a b => a - b) ts.tail ts

/-- The sampling frequency inferred by `_ensure_regular_time_index`:
`int(diffs.mode().iloc[0]) if not diffs.mode().empty else int(diffs.iloc[0])`. -/
def inferredStep (times : List ℤ) : ℤ :=
  let diffs := sortedDiffs times
  ((modeList diffs).headD (diffs.headD 0))

/-- `pd.date_range(lo, hi, freq)` for a positive day frequency: the days
`lo, lo + step, ...` up to `hi`. -/
def dateRange (lo hi step : ℤ) : List ℤ :=
  (List.range (((hi - lo) / step).toNat + 1)).map (fun (k : ℕ) => lo + step * (k : ℤ))

/-- Label lookup of `DataFrame.reindex` for a new index label `d`: the
(unique) row carrying date `d`, or the all-missing row `mkNa d` when `d` is a
newly introduced date. -/
def reindexPick (dIdx : Nat) (mkNa : ℤ → List Val) (rows : List (List Val))
    (d : ℤ) : List Val :=
  match rows.find? (fun r => toDateZ (cellAt dIdx r) = d) with
  | some r => r
  | none => mkNa d

/-- One group body of `_ensure_regular_time_index`: sort the group's dates,
infer the step, and reindex onto the complete range, existing dates keeping
their row and new dates receiving the all-missing row `mkNa d`.  Returns
`none` where pandas raises: a non-positive frequency (`pd.date_range` rejects
the `0D` frequency arising from duplicate dates) or reindexing a duplicate
date index. -/
def regularizeRows (dIdx : Nat) (mkNa : ℤ → List Val) (rows : List (List Val)) :
    Option (List (List Val)) :=
  if (insertionSortB intLeB (rows.map (fun r => toDateZ (cellAt dIdx r)))).length < 2 then
    some rows
  else if inferredStep (rows.map (fun r => toDateZ (cellAt dIdx r))) ≤ 0 then none
  else if ¬ (insertionSortB intLeB (rows.map (fun r => toDateZ (cellAt dIdx r)))).Nodup then
    none
  else
    some ((dateRange
        ((insertionSortB intLeB (rows.map (fun r => toDateZ (cellAt dIdx r)))).headD 0)
        ((insertionSortB intLeB (rows.map (fun r => toDateZ (cellAt dIdx r)))).getLastD 0)
        (inferredStep (rows.map (fun r => toDateZ (cellAt dIdx r))))).map
      (reindexPick dIdx mkNa rows))

/-- The all-missing reindexed row of the no-geo branch: only the date key is
set. -/
def naRowNoGeo (dIdx n : Nat) (d : ℤ) : List Val :=
  (List.range n).map (fun i => if i = dIdx then Val.date d else Val.na)

/-- The all-missing reindexed row of the geo branch: the date and geo keys
are set. -/
def naRowGeo (dIdx gIdx n : Nat) (g : Val) (d : ℤ) : List Val :=
  (List.range n).map (fun i =>
    if i = dIdx then Val.date d else if i = gIdx then g else Val.na)

/-- Day-number parsing of a date cell (`pd.to_datetime` applied to the date
column).  Dates are modelled by day numbers; string cells are parsed as
decimal day numbers, and cells that hold no date raise. -/
def toDatetime : Val → Option ℤ
  | .date d => some d
  | .str s => s.toInt?
  | _ => none

/-- Normalize the date cell of a row to a `Val.date`. -/
def convDateCell (dIdx : Nat) (r : List Val) : Option (List Val) :=
  match toDatetime (cellAt dIdx r) with
  | none => none
  | some d => some (r.set dIdx (Val.date d))

/-- Elementwise pandas equality `df[col] == value`: a missing value compares
unequal to everything, including another missing value (`NaN == NaN` is
`False`). -/
def valEqB : Val → Val → Bool
  | .na, _ => false
  | _, .na => false
  | a, b => decide (a = b)

/-- `_ensure_regular_time_index` of the source.  The date column is parsed,
then each geo group (the whole table when the geo column is absent) is
reindexed onto its inferred regular date range; the final `strftime` back to
canonical date strings is an injective re-formatting, modelled by keeping the
day-number representation.  The column reordering performed by `reset_index`
is not modelled: all claims about this function are column-order
independent.  When the geo column holds missing values, `unique()` lists the
missing value as a geo, but `df[df[geo] == geo]` selects nothing for it
(`NaN == NaN` is `False`): rows with a missing geo are silently dropped. -/
def ensure_regular_time_index (dateCol : String) (geoCol : Option String)
    (t : Table) : Option Table :=
  match t.cols.findIdx? (fun c => c = dateCol) with
  | none => none
  | some dIdx =>
    match t.rows.mapM (convDateCell dIdx) with
    | none => none
    | some rows =>
      match geoCol.bind (fun g => t.cols.findIdx? (fun c => c = g)) with
      | none =>
        match regularizeRows dIdx (naRowNoGeo dIdx t.cols.length) rows with
        | none => none
        | some newRows => some { cols := t.cols, rows := newRows }
      | some gIdx =>
        match (uniqueFirst (rows.map (cellAt gIdx))).mapM (fun g =>
            regularizeRows dIdx (naRowGeo dIdx gIdx t.cols.length g)
              (rows.filter (fun r => valEqB (cellAt gIdx r) g))) with
        | none => none
        | some frames => some { cols := t.cols, rows := frames.flatten }

/-! ### Basic lemmas about the sorting and mode helpers -/

theorem length_orderedInsertB (le : α → α → Bool) (x : α) (l : List α) :
    (orderedInsertB le x l).length = l.length + 1 := by
  induction l with
  | nil => rfl
  | cons y ys ih =>
    simp only [orderedInsertB]
    split
    · rfl
    · simp [ih]

theorem length_insertionSortB (le : α → α → Bool) (l : List α) :
    (insertionSortB le l).length = l.length := by
  induction l with
  | nil => rfl
  | cons x xs ih => simp [insertionSortB, length_orderedInsertB, ih]

theorem perm_orderedInsertB (le : α → α → Bool) (x : α) (l : List α) :
    (orderedInsertB le x l).Perm (x :: l) := by
  induction l with
  | nil => exact List.Perm.refl _
  | cons y ys ih =>
    simp only [orderedInsertB]
    split
    · exact List.Perm.refl _
    · exact (List.Perm.cons y ih).trans (List.Perm.swap x y ys)

theorem perm_insertionSortB (le : α → α → Bool) (l : List α) :
    (insertionSortB le l).Perm l := by
  induction l with
  | nil => exact List.Perm.refl _
  | cons x xs ih =>
    exact (perm_orderedInsertB le x (insertionSortB le xs)).trans (List.Perm.cons x ih)

theorem le_foldrMax {l : List ℕ} {a : ℕ} (h : a ∈ l) : a ≤ l.foldr max 0 := by
  induction l with
  | nil => cases h
  | cons b t ih =>
    rcases List.mem_cons.mp h with rfl | ht
    · exact Nat.le_max_left _ _
    · exact (ih ht).trans (Nat.le_max_right _ _)

theorem foldrMax_attained {l : List ℕ} (h : l ≠ []) :
    l.foldr max 0 ∈ l ∨ l.foldr max 0 = 0 := by
  induction l with
  | nil => exact absurd rfl h
  | cons b t ih =>
    cases t with
    | nil => left; simp
    | cons c u =>
      rcases ih (by simp) with hmem | hzero
      · rcases Nat.le_total ((c :: u).foldr max 0) b with hb | hb
        · left
          have heq : (b :: c :: u).foldr max 0 = b := by
            simp only [List.foldr_cons] at hb ⊢
            exact max_eq_left hb
          rw [heq]
          exact List.mem_cons_self _ _
        · left
          have heq : (b :: c :: u).foldr max 0 = (c :: u).foldr max 0 := by
            simp only [List.foldr_cons] at hb ⊢
            exact max_eq_right hb
          rw [heq]
          exact List.mem_cons_of_mem _ hmem
      · left
        have heq : (b :: c :: u).foldr max 0 = b := by
          simp only [List.foldr_cons] at hzero ⊢
          rw [hzero]
          exact max_eq_left (Nat.zero_le b)
        rw [heq]
        exact List.mem_cons_self _ _

theorem sorted_orderedInsertB (x : ℤ) {l : List ℤ} (h : l.Sorted (· ≤ ·)) :
    (orderedInsertB intLeB x l).Sorted (· ≤ ·) := by
  induction l with
  | nil => simp [orderedInsertB]
  | cons y ys ih =>
    rcases List.sorted_cons.mp h with ⟨hy, hys⟩
    by_cases hxy : x ≤ y
    · have heq : orderedInsertB intLeB x (y :: ys) = x :: y :: ys := by
        simp [orderedInsertB, intLeB, hxy]
      rw [heq]
      refine List.sorted_cons.mpr ⟨?_, h⟩
      intro z hz
      rcases List.mem_cons.mp hz with rfl | hzys
      · exact hxy
      · exact hxy.trans (hy z hzys)
    · have hyx : y ≤ x := le_of_not_le hxy
      have heq : orderedInsertB intLeB x (y :: ys) = y :: orderedInsertB intLeB x ys := by
        simp [orderedInsertB, intLeB, hxy]
      rw [heq]
      refine List.sorted_cons.mpr ⟨?_, ih hys⟩
      intro z hz
      have hz2 : z ∈ x :: ys := (perm_orderedInsertB intLeB x ys).mem_iff.mp hz
      rcases List.mem_cons.mp hz2 with rfl | hzys
      · exact hyx
      · exact hy z hzys

theorem sorted_insertionSortB (l : List ℤ) :
    (insertionSortB intLeB l).Sorted (· ≤ ·) := by
  induction l with
  | nil => exact List.sorted_nil
  | cons x xs ih => exact sorted_orderedInsertB x ih

theorem headD_le_of_sorted {L : List ℤ} (hs : L.Sorted (· ≤ ·)) {x : ℤ}
    (hx : x ∈ L) : L.headD 0 ≤ x := by
  cases L with
  | nil => cases hx
  | cons a t =>
    rcases List.mem_cons.mp hx with rfl | hxt
    · exact le_refl _
    · exact (List.pairwise_cons.mp hs).1 x hxt

/-- Characterization of the value `_ensure_regular_time_index` reads off the
mode series: for a nonempty series it is a member attaining the maximal
occurrence count, least among all values attaining it. -/
theorem modeList_headD_spec (l : List ℤ) (h : l ≠ []) :
    (modeList l).headD (l.headD 0) ∈ l ∧
    (∀ y ∈ l, l.count y ≤ l.count ((modeList l).headD (l.headD 0))) ∧
    (∀ y ∈ l, l.count y = l.count ((modeList l).headD (l.headD 0)) →
      (modeList l).headD (l.headD 0) ≤ y) := by
  set M := (l.map (fun x => l.count x)).foldr max 0 with hM
  have hbound : ∀ y ∈ l, l.count y ≤ M := by
    intro y hy
    exact le_foldrMax (List.mem_map_of_mem (fun x => l.count x) hy)
  obtain ⟨x0, hx0⟩ : ∃ x, x ∈ l := by
    cases l with
    | nil => exact absurd rfl h
    | cons a t => exact ⟨a, List.mem_cons_self a t⟩
  have hpos : 1 ≤ M := le_trans (List.count_pos_iff.mpr hx0) (hbound x0 hx0)
  have hattain : ∃ y ∈ l, l.count y = M := by
    rcases foldrMax_attained (l := l.map (fun x => l.count x))
        (by simpa using h) with hmem | hzero
    · rcases List.mem_map.mp hmem with ⟨y, hy, hyc⟩
      exact ⟨y, hy, hyc⟩
    · rw [← hM] at hzero
      omega
  obtain ⟨y0, hy0, hy0c⟩ := hattain
  have hmode : modeList l = insertionSortB intLeB ((l.filter (fun x => l.count x = M)).dedup) := by
    rw [modeList]
  have hmemiff : ∀ z : ℤ, z ∈ modeList l ↔ z ∈ l ∧ l.count z = M := by
    intro z
    rw [hmode, (perm_insertionSortB intLeB _).mem_iff, List.mem_dedup, List.mem_filter]
    simp
  have hsorted : (modeList l).Sorted (· ≤ ·) := by
    rw [hmode]
    exact sorted_insertionSortB _
  have hne : modeList l ≠ [] := by
    intro hnil
    have : y0 ∈ modeList l := (hmemiff y0).mpr ⟨hy0, hy0c⟩
    rw [hnil] at this
    cases this
  set m := (modeList l).headD (l.headD 0) with hm
  have hmmem : m ∈ modeList l := by
    cases hml : modeList l with
    | nil => exact absurd hml hne
    | cons a t =>
      rw [hm, hml]
      exact List.mem_cons_self a t
  obtain ⟨hml, hmcount⟩ := (hmemiff m).mp hmmem
  refine ⟨hml, ?_, ?_⟩
  · intro y hy
    rw [hmcount]
    exact hbound y hy
  · intro y hy hyc
    have hyf : y ∈ modeList l := (hmemiff y).mpr ⟨hy, by rw [hyc, hmcount]⟩
    have hle : (modeList l).headD 0 ≤ y := headD_le_of_sorted hsorted hyf
    cases hml2 : modeList l with
    | nil => exact absurd hml2 hne
    | cons a t =>
      rw [hml2] at hle
      rw [hm, hml2]
      exact hle

/-! ### Claim C1: the inferred frequency -/

/-- C1, counterexample.  For the group with dates `[0, 2, 3]` the consecutive
sorted-date differences are `[2, 1]`, all distinct, so the claim's fallback
clause predicts a step equal to the first observed difference, `2`; but the
code infers step `1` (`Series.mode` of an all-distinct series returns every
value sorted ascending, and `.iloc[0]` picks the smallest), and the full
regularizer accordingly fills the group to the step-1 range `[0, 1, 2, 3]`. -/
theorem C1_counterexample :
    sortedDiffs [0, 2, 3] = [2, 1] ∧ ([2, 1] : List ℤ).Nodup ∧
    inferredStep [0, 2, 3] = 1 ∧ inferredStep [0, 2, 3] ≠ 2 ∧
    ensure_regular_time_index "time" none
        { cols := ["time"], rows := [[.date 0], [.date 2], [.date 3]] } =
      some { cols := ["time"],
             rows := [[.date 0], [.date 1], [.date 2], [.date 3]] } := by
  refine ⟨by decide, by decide, by decide, by decide, by decide⟩

/-- C1, amended.  For every group with at least two rows, the step inferred
by the regularizer is the statistical mode of the consecutive sorted-date
differences, ties among equally frequent differences broken toward the
smallest; when all differences are distinct they are all tied as modes and
the smallest difference (not necessarily the first observed one) is
inferred: the first-observed-difference fallback of the claim is unreachable
for such groups, since the mode series of a nonempty series is never
empty. -/
theorem C1_amended_least_mode (times : List ℤ) (h : 2 ≤ times.length) :
    inferredStep times ∈ sortedDiffs times ∧
    (∀ y ∈ sortedDiffs times,
      (sortedDiffs times).count y ≤ (sortedDiffs times).count (inferredStep times)) ∧
    (∀ y ∈ sortedDiffs times,
      (sortedDiffs times).count y = (sortedDiffs times).count (inferredStep times) →
      inferredStep times ≤ y) := by
  have hlen : (sortedDiffs times).length = times.length - 1 := by
    rw [sortedDiffs]
    simp [List.length_zipWith, length_insertionSortB]
  have hne : sortedDiffs times ≠ [] := by
    intro hnil
    rw [hnil] at hlen
    simp at hlen
    omega
  have hstep : inferredStep times =
      (modeList (sortedDiffs times)).headD ((sortedDiffs times).headD 0) := rfl
  rw [hstep]
  exact modeList_headD_spec (sortedDiffs times) hne

/-- C1, witness for the amended theorem at the group `[0, 2, 3]`. -/
theorem C1_amended_least_mode_witness :
    inferredStep [0, 2, 3] ∈ sortedDiffs [0, 2, 3] ∧
    (∀ y ∈ sortedDiffs [0, 2, 3],
      (sortedDiffs [0, 2, 3]).count y ≤
        (sortedDiffs [0, 2, 3]).count (inferredStep [0, 2, 3])) ∧
    (∀ y ∈ sortedDiffs [0, 2, 3],
      (sortedDiffs [0, 2, 3]).count y =
        (sortedDiffs [0, 2, 3]).count (inferredStep [0, 2, 3]) →
      inferredStep [0, 2, 3] ≤ y) :=
  C1_amended_least_mode [0, 2, 3] (by decide)

/-! ### Lemmas about rows, reindexing and the date range -/

theorem getD_map_range {α : Type} (n i : Nat) (f : Nat → α) (d : α) (h : i < n) :
    ((List.range n).map f).getD i d = f i := by
  rw [List.getD_eq_getElem?_getD, List.getElem?_map, List.getElem?_range h]
  rfl

theorem set_getD_self {α : Type} (l : List α) (i : Nat) (d : α) :
    l.set i (l.getD i d) = l := by
  rcases Nat.lt_or_ge i l.length with h | h
  · apply List.ext_getElem?
    intro n
    rcases eq_or_ne i n with rfl | hne
    · rw [List.getElem?_set_self (by omega), List.getD_eq_getElem?_getD,
        List.getElem?_eq_getElem h]
      rfl
    · rw [List.getElem?_set_ne hne]
  · exact List.set_eq_of_length_le h

theorem mapM_eq_some_self {α : Type} {f : α → Option α} :
    ∀ {l : List α}, (∀ x ∈ l, f x = some x) → l.mapM f = some l := by
  intro l
  induction l with
  | nil => intro _; rfl
  | cons x xs ih =>
    intro hall
    rw [List.mapM_cons, hall x (List.mem_cons_self _ _),
      ih (fun y hy => hall y (List.mem_cons_of_mem _ hy))]
    rfl

theorem mapM_eq_some_forall₂ {α β : Type} {f : α → Option β} :
    ∀ {l : List α} {l2 : List β}, l.mapM f = some l2 →
      List.Forall₂ (fun a b => f a = some b) l l2 := by
  intro l
  induction l with
  | nil =>
    intro l2 h
    rw [List.mapM_nil] at h
    cases h
    exact List.Forall₂.nil
  | cons x xs ih =>
    intro l2 h
    rw [List.mapM_cons] at h
    cases hfx : f x with
    | none => rw [hfx] at h; cases h
    | some y =>
      rw [hfx] at h
      cases hxs : xs.mapM f with
      | none => rw [hxs] at h; cases h
      | some ys =>
        rw [hxs] at h
        cases h
        exact List.Forall₂.cons hfx (ih hxs)

theorem find?_key_self {α β : Type} [DecidableEq β] (f : α → β) :
    ∀ {l : List α}, (l.map f).Nodup → ∀ {a}, a ∈ l →
      l.find? (fun x => f x = f a) = some a := by
  intro l
  induction l with
  | nil => intro _ a ha; cases ha
  | cons b t ih =>
    intro hnd a ha
    have hnd2 : (∀ x ∈ t, ¬ f x = f b) ∧ (t.map f).Nodup := by simpa using hnd
    rcases List.mem_cons.mp ha with rfl | hat
    · simp [List.find?]
    · have hne : ¬ (f b = f a) := by
        intro he
        exact hnd2.1 a hat (by rw [he])
      have hb : (decide (f b = f a)) = false := by simp [hne]
      rw [List.find?, hb]
      exact ih hnd2.2 hat

theorem chain'_dateRange (lo hi s : ℤ) :
    (dateRange lo hi s).Chain' (fun a b => b = a + s) := by
  rw [dateRange]
  refine (List.chain'_map (fun k : ℕ => lo + s * (k : ℤ))).mpr ?_
  refine (List.chain'_range_succ _ _).mpr ?_
  intro m _
  push_cast
  ring

theorem nodup_of_chain'_add {s : ℤ} (hs : 0 < s) {l : List ℤ}
    (h : l.Chain' (fun a b => b = a + s)) : l.Nodup := by
  have hlt : l.Chain' (· < ·) := h.imp (fun a b hab => by omega)
  have hpw : l.Pairwise (· < ·) := List.chain'_iff_pairwise.mp hlt
  exact hpw.imp (fun hab => ne_of_lt hab)

theorem nodup_dateRange (lo hi : ℤ) {s : ℤ} (hs : 0 < s) :
    (dateRange lo hi s).Nodup :=
  nodup_of_chain'_add hs (chain'_dateRange lo hi s)

theorem reindexPick_date {dIdx : Nat} {mkNa : ℤ → List Val}
    {rows : List (List Val)} {d : ℤ} (hmk : toDateZ (cellAt dIdx (mkNa d)) = d) :
    toDateZ (cellAt dIdx (reindexPick dIdx mkNa rows d)) = d := by
  rw [reindexPick]
  cases hf : rows.find? (fun r => toDateZ (cellAt dIdx r) = d) with
  | none => exact hmk
  | some r =>
    have := List.find?_some hf
    simpa using this

theorem reindexPick_cases (dIdx : Nat) (mkNa : ℤ → List Val)
    (rows : List (List Val)) (d : ℤ) :
    (reindexPick dIdx mkNa rows d ∈ rows ∧
      toDateZ (cellAt dIdx (reindexPick dIdx mkNa rows d)) = d) ∨
    (reindexPick dIdx mkNa rows d = mkNa d ∧
      ∀ r ∈ rows, toDateZ (cellAt dIdx r) ≠ d) := by
  rw [reindexPick]
  cases hf : rows.find? (fun r => toDateZ (cellAt dIdx r) = d) with
  | none =>
    right
    refine ⟨rfl, fun r hr => ?_⟩
    have := List.find?_eq_none.mp hf r hr
    simpa using this
  | some r =>
    left
    refine ⟨List.mem_of_find?_eq_some hf, ?_⟩
    have := List.find?_some hf
    simpa using this

theorem length_times_eq {dIdx : Nat} (rows : List (List Val)) :
    (insertionSortB intLeB (rows.map (fun r => toDateZ (cellAt dIdx r)))).length =
      rows.length := by
  rw [length_insertionSortB, List.length_map]

theorem regularizeRows_small {dIdx : Nat} {mkNa : ℤ → List Val}
    {rows : List (List Val)} (h2 : rows.length < 2) :
    regularizeRows dIdx mkNa rows = some rows := by
  rw [regularizeRows]
  rw [if_pos]
  rw [length_times_eq]
  exact h2

theorem regularizeRows_big {dIdx : Nat} {mkNa : ℤ → List Val}
    {rows out : List (List Val)}
    (h : regularizeRows dIdx mkNa rows = some out) (h2 : 2 ≤ rows.length) :
    0 < inferredStep (rows.map (fun r => toDateZ (cellAt dIdx r))) ∧
    (rows.map (fun r => toDateZ (cellAt dIdx r))).Nodup ∧
    out = (dateRange
        ((insertionSortB intLeB (rows.map (fun r => toDateZ (cellAt dIdx r)))).headD 0)
        ((insertionSortB intLeB (rows.map (fun r => toDateZ (cellAt dIdx r)))).getLastD 0)
        (inferredStep (rows.map (fun r => toDateZ (cellAt dIdx r))))).map
      (reindexPick dIdx mkNa rows) := by
  rw [regularizeRows] at h
  rw [if_neg (by rw [length_times_eq]; omega)] at h
  split_ifs at h with hfreq hnd
  · refine ⟨by omega, ?_, ?_⟩
    · exact ((perm_insertionSortB intLeB _).nodup_iff).mp hnd
    · exact (Option.some.inj h).symm

/-- Any successfully regularized group carries dates forming an arithmetic
progression with one positive step and without duplicates. -/
theorem regularizeRows_group_chain {dIdx : Nat} {mkNa : ℤ → List Val}
    {rows out : List (List Val)}
    (hmk : ∀ d, toDateZ (cellAt dIdx (mkNa d)) = d)
    (h : regularizeRows dIdx mkNa rows = some out) :
    ∃ s : ℤ, 0 < s ∧
      (out.map (fun r => toDateZ (cellAt dIdx r))).Chain' (fun a b => b = a + s) ∧
      (out.map (fun r => toDateZ (cellAt dIdx r))).Nodup := by
  rcases Nat.lt_or_ge rows.length 2 with h2 | h2
  · rw [regularizeRows_small h2] at h
    cases h
    refine ⟨1, one_pos, ?_, ?_⟩
    · match rows, h2 with
      | [], _ => exact List.chain'_nil
      | [r], _ => exact List.chain'_singleton _
    · match rows, h2 with
      | [], _ => exact List.nodup_nil
      | [r], _ => simp
  · obtain ⟨hstep, _, hout⟩ := regularizeRows_big h h2
    refine ⟨inferredStep (rows.map (fun r => toDateZ (cellAt dIdx r))), hstep, ?_, ?_⟩
    · rw [hout, List.map_map]
      have heq : ∀ d ∈ dateRange
            ((insertionSortB intLeB (rows.map (fun r => toDateZ (cellAt dIdx r)))).headD 0)
            ((insertionSortB intLeB (rows.map (fun r => toDateZ (cellAt dIdx r)))).getLastD 0)
            (inferredStep (rows.map (fun r => toDateZ (cellAt dIdx r)))),
          ((fun r => toDateZ (cellAt dIdx r)) ∘ reindexPick dIdx mkNa rows) d = id d := by
        intro d _
        exact reindexPick_date (hmk d)
      rw [List.map_congr_left heq, List.map_id]
      exact chain'_dateRange _ _ _
    · rw [hout, List.map_map]
      have heq : ∀ d ∈ dateRange
            ((insertionSortB intLeB (rows.map (fun r => toDateZ (cellAt dIdx r)))).headD 0)
            ((insertionSortB intLeB (rows.map (fun r => toDateZ (cellAt dIdx r)))).getLastD 0)
            (inferredStep (rows.map (fun r => toDateZ (cellAt dIdx r)))),
          ((fun r => toDateZ (cellAt dIdx r)) ∘ reindexPick dIdx mkNa rows) d = id d := by
        intro d _
        exact reindexPick_date (hmk d)
      rw [List.map_congr_left heq, List.map_id]
      exact nodup_dateRange _ _ hstep

/-! ### Claim C2: reindexing of each group -/

/-- C2, counterexample.  For the single group with dates `[0, 2, 5]` the
inferred step is 2 (mode of the distinct differences `[2, 3]`, smallest
chosen), the constructed range is `[0, 2, 4]`, and the originally observed
date `5` does not appear in the output at all: reindexing drops observed
rows whose date is not on the constructed range, contradicting the claim
that every originally observed date still appears. -/
theorem C2_counterexample :
    ensure_regular_time_index "time" none
        { cols := ["time", "x"],
          rows := [[.date 0, .num 10], [.date 2, .num 20], [.date 5, .num 30]] } =
      some { cols := ["time", "x"],
             rows := [[.date 0, .num 10], [.date 2, .num 20], [.date 4, .na]] } ∧
    Val.date 5 ∈ ([[Val.date 0, Val.num 10], [Val.date 2, Val.num 20],
        [Val.date 5, Val.num 30]].map (cellAt 0)) ∧
    Val.date 5 ∉ ([[Val.date 0, Val.num 10], [Val.date 2, Val.num 20],
        [Val.date 4, Val.na]].map (cellAt 0)) := by
  refine ⟨by decide, by decide, by decide⟩

/-! ### Lemmas about `uniqueFirst` and the per-geo frames -/

theorem uniqueFirstAux_mem {α : Type} [DecidableEq α] :
    ∀ (l : List α) (seen : List α) (x : α),
      x ∈ uniqueFirstAux seen l ↔ x ∈ l ∧ x ∉ seen := by
  intro l
  induction l with
  | nil => intro seen x; simp [uniqueFirstAux]
  | cons y ys ih =>
    intro seen x
    rw [uniqueFirstAux]
    by_cases hy : y ∈ seen
    · rw [if_pos hy, ih]
      constructor
      · rintro ⟨h1, h2⟩
        exact ⟨List.mem_cons_of_mem _ h1, h2⟩
      · rintro ⟨h1, h2⟩
        rcases List.mem_cons.mp h1 with rfl | h1
        · exact absurd hy h2
        · exact ⟨h1, h2⟩
    · rw [if_neg hy]
      constructor
      · intro hx
        rcases List.mem_cons.mp hx with rfl | hx
        · exact ⟨List.mem_cons_self _ _, hy⟩
        · have := (ih (y :: seen) x).mp hx
          refine ⟨List.mem_cons_of_mem _ this.1, fun hs => this.2 (List.mem_cons_of_mem _ hs)⟩
      · rintro ⟨h1, h2⟩
        rcases List.mem_cons.mp h1 with rfl | h1
        · exact List.mem_cons_self _ _
        · by_cases hxy : x = y
          · subst hxy
            exact List.mem_cons_self _ _
          · refine List.mem_cons_of_mem _ ((ih (y :: seen) x).mpr ⟨h1, ?_⟩)
            intro hs
            rcases List.mem_cons.mp hs with h | h
            · exact hxy h
            · exact h2 h

theorem mem_uniqueFirst {α : Type} [DecidableEq α] {l : List α} {x : α} :
    x ∈ uniqueFirst l ↔ x ∈ l := by
  rw [uniqueFirst, uniqueFirstAux_mem]
  simp

theorem uniqueFirstAux_nodup {α : Type} [DecidableEq α] :
    ∀ (l : List α) (seen : List α), (uniqueFirstAux seen l).Nodup := by
  intro l
  induction l with
  | nil => intro seen; exact List.nodup_nil
  | cons y ys ih =>
    intro seen
    rw [uniqueFirstAux]
    by_cases hy : y ∈ seen
    · rw [if_pos hy]; exact ih seen
    · rw [if_neg hy]
      refine List.nodup_cons.mpr ⟨?_, ih (y :: seen)⟩
      intro hmem
      exact ((uniqueFirstAux_mem ys (y :: seen) y).mp hmem).2 (List.mem_cons_self _ _)

theorem nodup_uniqueFirst {α : Type} [DecidableEq α] (l : List α) :
    (uniqueFirst l).Nodup :=
  uniqueFirstAux_nodup l []

theorem valEqB_eq_true {a b : Val} : valEqB a b = true ↔ a = b ∧ b ≠ Val.na := by
  cases a <;> cases b <;> simp [valEqB]

theorem valEqB_eq_decide {a b : Val} (hb : b ≠ Val.na) :
    valEqB a b = decide (a = b) := by
  cases a <;> cases b <;> simp_all [valEqB]

theorem filter_valEqB_na (gIdx : Nat) (l : List (List Val)) :
    l.filter (fun r => valEqB (cellAt gIdx r) Val.na) = [] := by
  rw [List.filter_eq_nil_iff]
  intro r _
  cases hc : cellAt gIdx r <;> simp [valEqB]

theorem flatten_cell_mem {gIdx : Nat} :
    ∀ {geos : List Val} {frames : List (List (List Val))},
      List.Forall₂ (fun g fr => ∀ r ∈ fr, cellAt gIdx r = g) geos frames →
      ∀ r ∈ frames.flatten, cellAt gIdx r ∈ geos := by
  intro geos frames hall
  induction hall with
  | nil => intro r hr; cases hr
  | @cons g fr gs frs hgf _ ih =>
    intro r hr
    rw [List.flatten_cons, List.mem_append] at hr
    rcases hr with hr | hr
    · rw [hgf r hr]
      exact List.mem_cons_self _ _
    · exact List.mem_cons_of_mem _ (ih r hr)

theorem filter_flatten_not_mem {gIdx : Nat} {geos : List Val}
    {frames : List (List (List Val))}
    (hall : List.Forall₂ (fun g fr => ∀ r ∈ fr, cellAt gIdx r = g) geos frames)
    {v : Val} (hv : v ∉ geos) :
    frames.flatten.filter (fun r => decide (cellAt gIdx r = v)) = [] := by
  rw [List.filter_eq_nil_iff]
  intro r hr
  simp only [decide_eq_true_eq]
  intro he
  exact hv (he ▸ flatten_cell_mem hall r hr)

theorem filter_flatten_pair {R : Val → List (List Val) → Prop} {gIdx : Nat} :
    ∀ {geos : List Val} {frames : List (List (List Val))},
      List.Forall₂ (fun g fr => R g fr ∧ ∀ r ∈ fr, cellAt gIdx r = g) geos frames →
      geos.Nodup → ∀ v ∈ geos,
        R v (frames.flatten.filter (fun r => decide (cellAt gIdx r = v))) := by
  intro geos frames hall
  induction hall with
  | nil => intro _ v hv; cases hv
  | @cons g fr gs frs hgf htail ih =>
    intro hnd v hv
    have hnd2 := List.nodup_cons.mp hnd
    rw [List.flatten_cons, List.filter_append]
    rcases List.mem_cons.mp hv with rfl | hvgs
    · have h1 : fr.filter (fun r => decide (cellAt gIdx r = v)) = fr := by
        rw [List.filter_eq_self]
        intro r hr
        simp [hgf.2 r hr]
      have h2 : frs.flatten.filter (fun r => decide (cellAt gIdx r = v)) = [] :=
        filter_flatten_not_mem (htail.imp (fun a b hab => hab.2)) hnd2.1
      rw [h1, h2, List.append_nil]
      exact hgf.1
    · have h1 : fr.filter (fun r => decide (cellAt gIdx r = v)) = [] := by
        rw [List.filter_eq_nil_iff]
        intro r hr
        simp only [decide_eq_true_eq]
        rw [hgf.2 r hr]
        intro he
        exact hnd2.1 (he ▸ hvgs)
      rw [h1, List.nil_append]
      exact ih hnd2.2 v hvgs

/-! ### Inversion of `ensure_regular_time_index` -/

theorem findIdx?_some_facts {cols : List String} {p : String → Bool} :
    ∀ {i : Nat}, cols.findIdx? p = some i →
      i < cols.length ∧ cols.findIdx p = i ∧ p (cols.getD i "") = true := by
  intro i h
  obtain ⟨hlt, heq⟩ := List.findIdx?_eq_some_iff_findIdx_eq.mp h
  refine ⟨hlt, heq, ?_⟩
  have hw : cols.findIdx p < cols.length := by omega
  have hp := List.findIdx_getElem (w := hw)
  have hgd : cols.getD i "" = cols[cols.findIdx p] := by
    rw [List.getD_eq_getElem?_getD, List.getElem?_eq_getElem hlt]
    simp [heq]
  rw [hgd]
  exact hp

theorem ensure_some_inv {dateCol : String} {geoCol : Option String} {t out : Table}
    (h : ensure_regular_time_index dateCol geoCol t = some out) :
    ∃ dIdx rows,
      t.cols.findIdx? (fun c => c = dateCol) = some dIdx ∧
      t.rows.mapM (convDateCell dIdx) = some rows ∧
      out.cols = t.cols ∧
      (((geoCol.bind fun g => t.cols.findIdx? (fun c => c = g)) = none ∧
        regularizeRows dIdx (naRowNoGeo dIdx t.cols.length) rows = some out.rows) ∨
       (∃ gIdx frames,
         (geoCol.bind fun g => t.cols.findIdx? (fun c => c = g)) = some gIdx ∧
         List.Forall₂ (fun g fr =>
             regularizeRows dIdx (naRowGeo dIdx gIdx t.cols.length g)
               (rows.filter (fun r => valEqB (cellAt gIdx r) g)) = some fr)
           (uniqueFirst (rows.map (cellAt gIdx))) frames ∧
         out.rows = frames.flatten)) := by
  rw [ensure_regular_time_index] at h
  split at h
  · exact absurd h (by simp)
  · rename_i dIdx hd
    split at h
    · exact absurd h (by simp)
    · rename_i rows hrows
      refine ⟨dIdx, rows, hd, hrows, ?_⟩
      split at h
      · rename_i hg
        split at h
        · exact absurd h (by simp)
        · rename_i newRows hreg
          have hout : out = { cols := t.cols, rows := newRows } := (Option.some.inj h).symm
          subst hout
          exact ⟨rfl, Or.inl ⟨hg, hreg⟩⟩
      · rename_i gIdx hg
        split at h
        · exact absurd h (by simp)
        · rename_i frames hfr
          have hout : out = { cols := t.cols, rows := frames.flatten } := (Option.some.inj h).symm
          subst hout
          exact ⟨rfl, Or.inr ⟨gIdx, frames, hg, mapM_eq_some_forall₂ hfr, rfl⟩⟩

/-- Cells of a fixed non-date column are preserved by per-group reindexing
when the all-missing row constructor fixes them as well. -/
theorem regularizeRows_cell_stable {dIdx gIdx : Nat} {mkNa : ℤ → List Val}
    {rows out : List (List Val)} {g : Val}
    (hrows : ∀ r ∈ rows, cellAt gIdx r = g)
    (hmk : ∀ d, cellAt gIdx (mkNa d) = g)
    (h : regularizeRows dIdx mkNa rows = some out) :
    ∀ r ∈ out, cellAt gIdx r = g := by
  rcases Nat.lt_or_ge rows.length 2 with h2 | h2
  · rw [regularizeRows_small h2] at h
    cases h
    exact hrows
  · obtain ⟨_, _, hout⟩ := regularizeRows_big h h2
    subst hout
    intro r hr
    obtain ⟨d, _, hd⟩ := List.mem_map.mp hr
    rcases reindexPick_cases dIdx mkNa rows d with ⟨hmem, _⟩ | ⟨heq, _⟩
    · rw [← hd]
      exact hrows _ hmem
    · rw [← hd, heq]
      exact hmk d

/-- Row-level correspondence of a reindexed group: the output dates are
exactly the constructed range, rows at observed on-range dates are the input
rows unchanged, and rows at newly introduced dates are the all-missing
rows. -/
theorem regularizeRows_corr {dIdx : Nat} {mkNa : ℤ → List Val}
    {rows out : List (List Val)}
    (hmk : ∀ d, toDateZ (cellAt dIdx (mkNa d)) = d)
    (h : regularizeRows dIdx mkNa rows = some out) (h2 : 2 ≤ rows.length) :
    out.map (fun r => toDateZ (cellAt dIdx r)) =
      dateRange
        ((insertionSortB intLeB (rows.map (fun r => toDateZ (cellAt dIdx r)))).headD 0)
        ((insertionSortB intLeB (rows.map (fun r => toDateZ (cellAt dIdx r)))).getLastD 0)
        (inferredStep (rows.map (fun r => toDateZ (cellAt dIdx r)))) ∧
    (∀ r ∈ rows, toDateZ (cellAt dIdx r) ∈
        dateRange
          ((insertionSortB intLeB (rows.map (fun r => toDateZ (cellAt dIdx r)))).headD 0)
          ((insertionSortB intLeB (rows.map (fun r => toDateZ (cellAt dIdx r)))).getLastD 0)
          (inferredStep (rows.map (fun r => toDateZ (cellAt dIdx r)))) → r ∈ out) ∧
    (∀ r ∈ out, toDateZ (cellAt dIdx r) ∈ rows.map (fun r => toDateZ (cellAt dIdx r)) →
      r ∈ rows) ∧
    (∀ r ∈ out, toDateZ (cellAt dIdx r) ∉ rows.map (fun r => toDateZ (cellAt dIdx r)) →
      r = mkNa (toDateZ (cellAt dIdx r))) := by
  obtain ⟨hstep, hnd, hout⟩ := regularizeRows_big h h2
  refine ⟨?_, ?_, ?_, ?_⟩
  · rw [hout, List.map_map]
    have heq : ∀ d ∈ dateRange
          ((insertionSortB intLeB (rows.map (fun r => toDateZ (cellAt dIdx r)))).headD 0)
          ((insertionSortB intLeB (rows.map (fun r => toDateZ (cellAt dIdx r)))).getLastD 0)
          (inferredStep (rows.map (fun r => toDateZ (cellAt dIdx r)))),
        ((fun r => toDateZ (cellAt dIdx r)) ∘ reindexPick dIdx mkNa rows) d = id d := by
      intro d _
      exact reindexPick_date (hmk d)
    rw [List.map_congr_left heq, List.map_id]
  · intro r hr hd
    have hfind : rows.find? (fun x => toDateZ (cellAt dIdx x) = toDateZ (cellAt dIdx r)) =
        some r := find?_key_self (fun x => toDateZ (cellAt dIdx x)) hnd hr
    have hpick : reindexPick dIdx mkNa rows (toDateZ (cellAt dIdx r)) = r := by
      rw [reindexPick, hfind]
    rw [hout]
    rw [← hpick]
    exact List.mem_map_of_mem _ hd
  · intro r hr hd
    rw [hout] at hr
    obtain ⟨d, _, hdr⟩ := List.mem_map.mp hr
    rcases reindexPick_cases dIdx mkNa rows d with ⟨hmem, _⟩ | ⟨heq, hnone⟩
    · rw [← hdr]
      exact hmem
    · exfalso
      obtain ⟨x, hx, hxd⟩ := List.mem_map.mp hd
      refine hnone x hx ?_
      rw [hxd, ← hdr, heq, hmk d]
  · intro r hr hd
    rw [hout] at hr
    obtain ⟨d, _, hdr⟩ := List.mem_map.mp hr
    rcases reindexPick_cases dIdx mkNa rows d with ⟨hmem, hdate⟩ | ⟨heq, _⟩
    · exfalso
      refine hd ?_
      rw [← hdr]
      exact List.mem_map_of_mem _ hmem
    · rw [← hdr, heq, hmk d]

/-! ### Claim C3: the regularity invariant -/

/-- Selector of the rows of one geo group of a table (every row when the geo
column is absent), matching the grouping performed by the regularizer. -/
def groupSel (cols : List String) (geoCol : Option String) (v : Val)
    (r : List Val) : Bool :=
  match geoCol.bind (fun g => cols.findIdx? (fun c => c = g)) with
  | none => true
  | some gIdx => decide (cellAt gIdx r = v)

/-- The rows of one geo group. -/
def groupRows (cols : List String) (geoCol : Option String) (v : Val)
    (rows : List (List Val)) : List (List Val) :=
  rows.filter (groupSel cols geoCol v)

/-- The date column of a list of rows, as day numbers. -/
def groupDates (dIdx : Nat) (rows : List (List Val)) : List ℤ :=
  rows.map (fun r => toDateZ (cellAt dIdx r))

theorem naRowNoGeo_date {dIdx n : Nat} (hlt : dIdx < n) (d : ℤ) :
    toDateZ (cellAt dIdx (naRowNoGeo dIdx n d)) = d := by
  rw [naRowNoGeo, cellAt, getD_map_range _ _ _ _ hlt]
  simp [toDateZ]

theorem naRowNoGeo_na {dIdx n i : Nat} (hlt : i < n) (hne : i ≠ dIdx) (d : ℤ) :
    cellAt i (naRowNoGeo dIdx n d) = Val.na := by
  rw [naRowNoGeo, cellAt, getD_map_range _ _ _ _ hlt]
  simp [hne]

theorem naRowGeo_date {dIdx gIdx n : Nat} (hlt : dIdx < n) (g : Val) (d : ℤ) :
    toDateZ (cellAt dIdx (naRowGeo dIdx gIdx n g d)) = d := by
  rw [naRowGeo, cellAt, getD_map_range _ _ _ _ hlt]
  simp [toDateZ]

theorem naRowGeo_geo {dIdx gIdx n : Nat} (hlt : gIdx < n) (hne : gIdx ≠ dIdx)
    (g : Val) (d : ℤ) :
    cellAt gIdx (naRowGeo dIdx gIdx n g d) = g := by
  rw [naRowGeo, cellAt, getD_map_range _ _ _ _ hlt]
  simp [hne]

theorem naRowGeo_na {dIdx gIdx n i : Nat} (hlt : i < n) (hnd : i ≠ dIdx)
    (hng : i ≠ gIdx) (g : Val) (d : ℤ) :
    cellAt i (naRowGeo dIdx gIdx n g d) = Val.na := by
  rw [naRowGeo, cellAt, getD_map_range _ _ _ _ hlt]
  simp [hnd, hng]

/-- The two geo-column indices named by an `ensure_regular_time_index` run
are distinct from the date index when the geo column name differs from the
date column name. -/
theorem geoIdx_facts {dateCol : String} {geoCol : Option String}
    {cols : List String} {dIdx gIdx : Nat}
    (hd : cols.findIdx? (fun c => c = dateCol) = some dIdx)
    (hg : (geoCol.bind fun g => cols.findIdx? (fun c => c = g)) = some gIdx)
    (hgd : ∀ g, geoCol = some g → g ≠ dateCol) :
    gIdx < cols.length ∧ gIdx ≠ dIdx ∧
      (∀ g, geoCol = some g → cols.findIdx (fun c => c = g) = gIdx) := by
  rw [Option.bind_eq_some] at hg
  obtain ⟨gname, hgeo, hfind⟩ := hg
  obtain ⟨hdlt, hdfi, hdp⟩ := findIdx?_some_facts hd
  obtain ⟨hglt, hgfi, hgp⟩ := findIdx?_some_facts hfind
  have hgname : cols.getD gIdx "" = gname := by
    simpa using hgp
  have hdname : cols.getD dIdx "" = dateCol := by
    simpa using hdp
  refine ⟨hglt, ?_, ?_⟩
  · intro he
    apply hgd gname hgeo
    rw [← hgname, ← hdname, he]
  · intro g hgsome
    rw [hgsome] at hgeo
    cases hgeo
    exact hgfi

/-- C3.  For every input table on which the regularizer completes, within
each geo group of the output (the whole table when the geo column is absent
or not configured) the dates form an arithmetic progression with one
positive constant step and contain no duplicates; since every row of a group
carries the group geo value, the (date, geo) keys of a group are pairwise
distinct as well. -/
theorem C3_regularity_invariant (dateCol : String) (geoCol : Option String)
    (t out : Table) (hgd : ∀ g, geoCol = some g → g ≠ dateCol)
    (h : ensure_regular_time_index dateCol geoCol t = some out) (v : Val) :
    ∃ s : ℤ, 0 < s ∧
      (groupDates (t.cols.findIdx (fun c => c = dateCol))
          (groupRows t.cols geoCol v out.rows)).Chain' (fun a b => b = a + s) ∧
      (groupDates (t.cols.findIdx (fun c => c = dateCol))
          (groupRows t.cols geoCol v out.rows)).Nodup := by
  obtain ⟨dIdx, rows, hd, hrows, hcols, hbr⟩ := ensure_some_inv h
  obtain ⟨hdlt, hdfi, hdp⟩ := findIdx?_some_facts hd
  rw [hdfi]
  rcases hbr with ⟨hg, hreg⟩ | ⟨gIdx, frames, hg, hfr, hout⟩
  · have hgr : groupRows t.cols geoCol v out.rows = out.rows := by
      rw [groupRows]
      refine List.filter_eq_self.mpr (fun a _ => ?_)
      rw [groupSel, hg]
    rw [hgr]
    exact regularizeRows_group_chain (fun d => naRowNoGeo_date hdlt d) hreg
  · obtain ⟨hglt, hgne, _⟩ := geoIdx_facts hd hg hgd
    have hgr : groupRows t.cols geoCol v out.rows =
        out.rows.filter (fun r => decide (cellAt gIdx r = v)) := by
      rw [groupRows]
      refine List.filter_congr (fun a _ => ?_)
      rw [groupSel, hg]
    have hall : List.Forall₂ (fun g fr =>
        (regularizeRows dIdx (naRowGeo dIdx gIdx t.cols.length g)
          (rows.filter (fun r => valEqB (cellAt gIdx r) g)) = some fr) ∧
        ∀ r ∈ fr, cellAt gIdx r = g)
          (uniqueFirst (rows.map (cellAt gIdx))) frames := by
      refine hfr.imp (fun g fr hreg => ⟨hreg, ?_⟩)
      refine regularizeRows_cell_stable ?_ (fun d => naRowGeo_geo hglt hgne g d) hreg
      intro r hr
      have hv2 := (List.mem_filter.mp hr).2
      exact (valEqB_eq_true.mp hv2).1
    by_cases hv : v ∈ uniqueFirst (rows.map (cellAt gIdx))
    · have hsome := filter_flatten_pair hall (nodup_uniqueFirst _) v hv
      rw [hgr, hout]
      exact regularizeRows_group_chain (fun d => naRowGeo_date hdlt v d) hsome
    · have hnil := filter_flatten_not_mem (hall.imp (fun a b hab => hab.2)) hv
      rw [hgr, hout, hnil]
      exact ⟨1, one_pos, List.chain'_nil, List.nodup_nil⟩

/-- Concrete table for the C3 witness. -/
def tC3 : Table :=
  { cols := ["time", "geo", "x"],
    rows := [[.date 0, .str "a", .num 10], [.date 1, .str "a", .num 20],
             [.date 3, .str "a", .num 30], [.date 0, .str "b", .num 1]] }

/-- The regularized C3 witness table. -/
def outC3 : Table :=
  (ensure_regular_time_index "time" (some "geo") tC3).getD { cols := [], rows := [] }

/-- C3, witness at a concrete two-geo table. -/
theorem C3_regularity_invariant_witness :
    ∃ s : ℤ, 0 < s ∧
      (groupDates (tC3.cols.findIdx (fun c => c = "time"))
          (groupRows tC3.cols (some "geo") (Val.str "a") outC3.rows)).Chain'
        (fun a b => b = a + s) ∧
      (groupDates (tC3.cols.findIdx (fun c => c = "time"))
          (groupRows tC3.cols (some "geo") (Val.str "a") outC3.rows)).Nodup :=
  C3_regularity_invariant "time" (some "geo") tC3 outC3
    (by intro g hgeq; cases hgeq; decide) (by decide) (Val.str "a")

/-! ### Claim C2, amended: group reindexing correspondence -/

/-- The complete date range constructed for a group: from the group minimum
(head of the sorted dates) to the group maximum (last of the sorted dates),
stepping by the inferred frequency. -/
def groupRange (dIdx : Nat) (rows : List (List Val)) : List ℤ :=
  dateRange ((insertionSortB intLeB (groupDates dIdx rows)).headD 0)
    ((insertionSortB intLeB (groupDates dIdx rows)).getLastD 0)
    (inferredStep (groupDates dIdx rows))

/-- C2, amended.  For every group keyed by a non-missing geo value (any
group when no geo column is in play) with at least two rows (dates already
parsed), the regularizer reindexes the group onto the arithmetic range from
the group minimum to maximum stepping by the inferred frequency: the output
group dates are exactly that range; every originally observed row whose date
lies on the range appears unchanged; every output row with an observed date
is an original row; and every output row at a newly introduced date has all
non-key cells missing.  Observed rows whose date is off the range (possible
when the span is not a multiple of the step) are dropped.  Rows whose geo
key is missing are dropped wholesale: `NaN == NaN` is `False`, so the
missing-geo selection is empty and no output row carries a missing geo. -/
theorem C2_amended_group_reindex (dateCol : String) (geoCol : Option String)
    (t out : Table) (hgd : ∀ g, geoCol = some g → g ≠ dateCol)
    (hdates : ∀ r ∈ t.rows,
      ∃ d, cellAt (t.cols.findIdx (fun c => c = dateCol)) r = Val.date d)
    (h : ensure_regular_time_index dateCol geoCol t = some out) (v : Val)
    (hvna : geoCol = none ∨ v ≠ Val.na)
    (h2 : 2 ≤ (groupRows t.cols geoCol v t.rows).length) :
    groupDates (t.cols.findIdx (fun c => c = dateCol))
        (groupRows t.cols geoCol v out.rows) =
      groupRange (t.cols.findIdx (fun c => c = dateCol))
        (groupRows t.cols geoCol v t.rows) ∧
    (∀ r ∈ groupRows t.cols geoCol v t.rows,
      toDateZ (cellAt (t.cols.findIdx (fun c => c = dateCol)) r) ∈
          groupRange (t.cols.findIdx (fun c => c = dateCol))
            (groupRows t.cols geoCol v t.rows) →
        r ∈ groupRows t.cols geoCol v out.rows) ∧
    (∀ r ∈ groupRows t.cols geoCol v out.rows,
      toDateZ (cellAt (t.cols.findIdx (fun c => c = dateCol)) r) ∈
          groupDates (t.cols.findIdx (fun c => c = dateCol))
            (groupRows t.cols geoCol v t.rows) →
        r ∈ groupRows t.cols geoCol v t.rows) ∧
    (∀ r ∈ groupRows t.cols geoCol v out.rows,
      toDateZ (cellAt (t.cols.findIdx (fun c => c = dateCol)) r) ∉
          groupDates (t.cols.findIdx (fun c => c = dateCol))
            (groupRows t.cols geoCol v t.rows) →
        ∀ i, i < t.cols.length → i ≠ t.cols.findIdx (fun c => c = dateCol) →
          (∀ g, geoCol = some g → i ≠ t.cols.findIdx (fun c => c = g)) →
          cellAt i r = Val.na) ∧
    ((geoCol.bind fun g => t.cols.findIdx? (fun c => c = g)) ≠ none →
      groupRows t.cols geoCol Val.na out.rows = []) := by
  obtain ⟨dIdx, rows, hd, hrows, hcols, hbr⟩ := ensure_some_inv h
  obtain ⟨hdlt, hdfi, hdp⟩ := findIdx?_some_facts hd
  rw [hdfi] at hdates ⊢
  have hconv : t.rows.mapM (convDateCell dIdx) = some t.rows := by
    refine mapM_eq_some_self (fun r hr => ?_)
    obtain ⟨d, hd2⟩ := hdates r hr
    rw [convDateCell, hd2]
    show some (r.set dIdx (Val.date d)) = some r
    have hset : r.set dIdx (Val.date d) = r := by
      rw [cellAt] at hd2
      rw [← hd2]
      exact set_getD_self r dIdx Val.na
    rw [hset]
  have hrt : rows = t.rows := (Option.some.inj (hconv.symm.trans hrows)).symm
  subst hrt
  rcases hbr with ⟨hg, hreg⟩ | ⟨gIdx, frames, hg, hfr, hout⟩
  · have hselt : ∀ l : List (List Val), groupRows t.cols geoCol v l = l := by
      intro l
      rw [groupRows]
      refine List.filter_eq_self.mpr (fun a _ => ?_)
      rw [groupSel, hg]
    simp only [hselt] at h2 ⊢
    obtain ⟨hc1, hc2, hc3, hc4⟩ :=
      regularizeRows_corr (fun d => naRowNoGeo_date hdlt d) hreg h2
    refine ⟨hc1, hc2, hc3, ?_, ?_⟩
    · intro r hr hnotin i hi hind _
      have hna := hc4 r hr hnotin
      rw [hna]
      exact naRowNoGeo_na hi hind _
    · intro hne
      exact absurd hg hne
  · obtain ⟨hglt, hgne, hgfi⟩ := geoIdx_facts hd hg hgd
    have hv : v ≠ Val.na := by
      rcases hvna with hnone | hv
      · rw [hnone] at hg
        exact absurd hg (by simp)
      · exact hv
    have hsel : ∀ (w : Val) (l : List (List Val)), groupRows t.cols geoCol w l =
        l.filter (fun r => decide (cellAt gIdx r = w)) := by
      intro w l
      rw [groupRows]
      refine List.filter_congr (fun a _ => ?_)
      rw [groupSel, hg]
    have hepr : groupRows t.cols geoCol v t.rows =
        t.rows.filter (fun r => decide (cellAt gIdx r = v)) := hsel v t.rows
    have hepo : groupRows t.cols geoCol v out.rows =
        frames.flatten.filter (fun r => decide (cellAt gIdx r = v)) := by
      rw [hsel v out.rows, hout]
    have hvmem : v ∈ uniqueFirst (t.rows.map (cellAt gIdx)) := by
      rw [mem_uniqueFirst]
      have hne : groupRows t.cols geoCol v t.rows ≠ [] := by
        intro hnil
        rw [hnil] at h2
        simp at h2
      obtain ⟨r, hrmem⟩ := List.exists_mem_of_ne_nil _ hne
      rw [hepr] at hrmem
      obtain ⟨hrrows, hrv⟩ := List.mem_filter.mp hrmem
      have hrv2 : cellAt gIdx r = v := by simpa using hrv
      rw [← hrv2]
      exact List.mem_map_of_mem _ hrrows
    have hall : List.Forall₂ (fun g fr =>
        (regularizeRows dIdx (naRowGeo dIdx gIdx t.cols.length g)
          (t.rows.filter (fun r => valEqB (cellAt gIdx r) g)) = some fr) ∧
        ∀ r ∈ fr, cellAt gIdx r = g)
          (uniqueFirst (t.rows.map (cellAt gIdx))) frames := by
      refine hfr.imp (fun g fr hreg => ⟨hreg, ?_⟩)
      refine regularizeRows_cell_stable ?_ (fun d => naRowGeo_geo hglt hgne g d) hreg
      intro r hr
      have hv2 := (List.mem_filter.mp hr).2
      exact (valEqB_eq_true.mp hv2).1
    have hsome := filter_flatten_pair hall (nodup_uniqueFirst _) v hvmem
    have hfeq : t.rows.filter (fun r => valEqB (cellAt gIdx r) v) =
        t.rows.filter (fun r => decide (cellAt gIdx r = v)) :=
      List.filter_congr (fun r _ => valEqB_eq_decide hv)
    rw [hfeq] at hsome
    rw [hepr] at h2
    rw [hepr, hepo]
    obtain ⟨hc1, hc2, hc3, hc4⟩ :=
      regularizeRows_corr (fun d => naRowGeo_date hdlt v d) hsome h2
    refine ⟨hc1, hc2, hc3, ?_, ?_⟩
    · intro r hr hnotin i hi hind hig
      have hna := hc4 r hr hnotin
      rw [hna]
      refine naRowGeo_na hi hind ?_ _ _
      rw [Option.bind_eq_some] at hg
      obtain ⟨gname, hgeo, _⟩ := hg
      have hne2 := hig gname hgeo
      rw [hgfi gname hgeo] at hne2
      exact hne2
    · intro _
      rw [hsel Val.na out.rows, hout]
      by_cases hnamem : Val.na ∈ uniqueFirst (t.rows.map (cellAt gIdx))
      · have hsna := filter_flatten_pair hall (nodup_uniqueFirst _) Val.na hnamem
        rw [filter_valEqB_na] at hsna
        have h0 : regularizeRows dIdx (naRowGeo dIdx gIdx t.cols.length Val.na)
            ([] : List (List Val)) = some [] := regularizeRows_small (by simp)
        rw [h0] at hsna
        exact (Option.some.inj hsna).symm
      · exact filter_flatten_not_mem (hall.imp (fun a b hab => hab.2)) hnamem

/-- Concrete geo table for the C2 witness: one geo group with a date gap,
plus two rows whose geo key is missing. -/
def tC2 : Table :=
  { cols := ["time", "geo", "x"],
    rows := [[.date 0, .str "a", .num 10], [.date 1, .str "a", .num 20],
             [.date 3, .str "a", .num 30], [.date 0, .na, .num 40],
             [.date 2, .na, .num 50]] }

/-- The regularized C2 witness table. -/
def outC2 : Table :=
  (ensure_regular_time_index "time" (some "geo") tC2).getD { cols := [], rows := [] }

/-- C2, witness: the geo group `a` is reindexed onto its range and the two
missing-geo rows are dropped. -/
theorem C2_amended_group_reindex_witness :
    groupDates (tC2.cols.findIdx (fun c => c = "time"))
        (groupRows tC2.cols (some "geo") (Val.str "a") outC2.rows) =
      groupRange (tC2.cols.findIdx (fun c => c = "time"))
        (groupRows tC2.cols (some "geo") (Val.str "a") tC2.rows) ∧
    (∀ r ∈ groupRows tC2.cols (some "geo") (Val.str "a") tC2.rows,
      toDateZ (cellAt (tC2.cols.findIdx (fun c => c = "time")) r) ∈
          groupRange (tC2.cols.findIdx (fun c => c = "time"))
            (groupRows tC2.cols (some "geo") (Val.str "a") tC2.rows) →
        r ∈ groupRows tC2.cols (some "geo") (Val.str "a") outC2.rows) ∧
    (∀ r ∈ groupRows tC2.cols (some "geo") (Val.str "a") outC2.rows,
      toDateZ (cellAt (tC2.cols.findIdx (fun c => c = "time")) r) ∈
          groupDates (tC2.cols.findIdx (fun c => c = "time"))
            (groupRows tC2.cols (some "geo") (Val.str "a") tC2.rows) →
        r ∈ groupRows tC2.cols (some "geo") (Val.str "a") tC2.rows) ∧
    (∀ r ∈ groupRows tC2.cols (some "geo") (Val.str "a") outC2.rows,
      toDateZ (cellAt (tC2.cols.findIdx (fun c => c = "time")) r) ∉
          groupDates (tC2.cols.findIdx (fun c => c = "time"))
            (groupRows tC2.cols (some "geo") (Val.str "a") tC2.rows) →
        ∀ i, i < tC2.cols.length → i ≠ tC2.cols.findIdx (fun c => c = "time") →
          (∀ g, (some "geo" : Option String) = some g →
            i ≠ tC2.cols.findIdx (fun c => c = g)) →
          cellAt i r = Val.na) ∧
    (((some "geo" : Option String).bind
        fun g => tC2.cols.findIdx? (fun c => c = g)) ≠ none →
      groupRows tC2.cols (some "geo") Val.na outC2.rows = []) :=
  C2_amended_group_reindex "time" (some "geo") tC2 outC2
    (by intro g hgeq; cases hgeq; decide)
    (by
      intro r hr
      have hcases : r = [Val.date 0, Val.str "a", Val.num 10] ∨
          r = [Val.date 1, Val.str "a", Val.num 20] ∨
          r = [Val.date 3, Val.str "a", Val.num 30] ∨
          r = [Val.date 0, Val.na, Val.num 40] ∨
          r = [Val.date 2, Val.na, Val.num 50] := by
        simpa [tC2] using hr
      rcases hcases with rfl | rfl | rfl | rfl | rfl
      · exact ⟨0, rfl⟩
      · exact ⟨1, rfl⟩
      · exact ⟨3, rfl⟩
      · exact ⟨0, rfl⟩
      · exact ⟨2, rfl⟩)
    (by decide) (Val.str "a") (Or.inr (by decide)) (by decide)

/-! ### `_aggregate_weekly` of the source -/

/-- Python / pandas weekday (Monday = 0): day 0, 1970-01-01, is a Thursday
(weekday 3). -/
def weekday (d : ℤ) : ℤ := (d + 3) % 7

/-- The week-start date of `d`:
`date - to_timedelta(date.weekday, unit days)` of the source. -/
def weekStart (d : ℤ) : ℤ := d - weekday d

/-- The survey metrics averaged over the week (the `avg_cols` literal of the
source). -/
def avg_cols : List String :=
  ["nps", "ins", "ces", "gqv", "haceb_marca_proximas_comprar",
   "haceb_marca_top_of_heart", "haceb_recordacion_top_of_mind"]

/-- A column aggregated by mean: member of `avg_cols` or name starting with
`descuento`. -/
def isMeanCol (c : String) : Bool := decide (c ∈ avg_cols) || c.startsWith "descuento"

/-- A cell a numeric (float) column may hold: a number or NaN. -/
def isNumCell : Val → Bool
  | .num _ => true
  | .na => true
  | _ => false

/-- `select_dtypes(include = number)` membership for the column at index
`i`: column dtypes are represented extensionally, a column being numeric
when every cell holds a number or NaN. -/
def colNumeric (rows : List (List Val)) (i : Nat) : Bool :=
  rows.all (fun r => isNumCell (cellAt i r))

/-- The numeric column indices of a table, in column order. -/
def numericIdxs (cols : List String) (rows : List (List Val)) : List Nat :=
  (List.range cols.length).filter (fun i => colNumeric rows i)

/-- Numeric reading of a cell (`none` for NaN: aggregations skip missing
values). -/
def toNumQ : Val → Option ℚ
  | .num q => some q
  | _ => none

/-- `sum` aggregation with pandas semantics: missing values skipped, an
all-missing group summing to 0. -/
def sumAgg (vs : List Val) : Val := Val.num ((vs.filterMap toNumQ).sum)

/-- `mean` aggregation with pandas semantics: missing values skipped, an
all-missing group remaining missing. -/
def meanAgg (vs : List Val) : Val :=
  match vs.filterMap toNumQ with
  | [] => Val.na
  | ns => Val.num (ns.sum / (ns.length : ℚ))

/-- Aggregation of one column of one group. -/
def aggColumn (isMean : Bool) (vs : List Val) : Val :=
  if isMean then meanAgg vs else sumAgg vs

/-- Total order used by `groupby(sort = True)` on the group-key tuples.
pandas compares key values directly (raising on incomparable mixed types);
the model totalizes the comparison by ranking the cell constructors. -/
def vleB (a b : Val) : Bool :=
  match a, b with
  | .na, _ => true
  | _, .na => false
  | .num x, .num y => decide (x ≤ y)
  | .num _, _ => true
  | _, .num _ => false
  | .str x, .str y => decide (x ≤ y)
  | .str _, _ => true
  | _, .str _ => false
  | .date x, .date y => decide (x ≤ y)

/-- Lexicographic comparison of group-key tuples. -/
def keyLeB : List Val → List Val → Bool
  | [], _ => true
  | _ :: _, [] => false
  | x :: xs, y :: ys => if x = y then keyLeB xs ys else vleB x y

/-- The group key of a row: its cells at the group column indices. -/
def rowKey (idxs : List Nat) (r : List Val) : List Val :=
  idxs.map (fun i => cellAt i r)

/-- Replace the date cell of a row by its week-start date
(`df[date] = df[date] - to_timedelta(df[date].weekday)`). -/
def weekConvRow (dIdx : Nat) (r : List Val) : Option (List Val) :=
  match toDatetime (cellAt dIdx r) with
  | none => none
  | some d => some (r.set dIdx (Val.date (weekStart d)))

/-- One aggregated output row of `groupby(...).agg(agg_dict)`: the group key
cells followed by every numeric column aggregated over the group's rows by
mean or sum according to the aggregation policy. -/
def aggRow (cols : List String) (groupIdxs numIdxs : List Nat)
    (rows : List (List Val)) (k : List Val) : List Val :=
  k ++ numIdxs.map (fun i =>
    aggColumn (isMeanCol (cols.getD i ""))
      ((rows.filter (fun r => rowKey groupIdxs r = k)).map (cellAt i)))

/-- `df.groupby(group_cols, as_index = False).agg(agg_dict)`: rows whose
group key contains a missing value are dropped (`dropna = True`), group keys
are the distinct key tuples sorted ascending, the output columns are the
group columns followed by the aggregated numeric columns, and aggregating a
grouping column raises (`none`). -/
def aggregateBody (cols : List String) (groupIdxs : List Nat)
    (rows : List (List Val)) : Option Table :=
  if (numericIdxs cols rows).any (fun i => groupIdxs.contains i) then none
  else
    some { cols := groupIdxs.map (fun i => cols.getD i "") ++
             (numericIdxs cols rows).map (fun i => cols.getD i ""),
           rows :=
             (insertionSortB keyLeB (uniqueFirst
                 ((rows.filter (fun r =>
                     groupIdxs.all (fun i => cellAt i r ≠ Val.na))).map
                   (rowKey groupIdxs)))).map
               (aggRow cols groupIdxs (numericIdxs cols rows)
                 (rows.filter (fun r =>
                   groupIdxs.all (fun i => cellAt i r ≠ Val.na)))) }

/-- `_aggregate_weekly` of the source: parse the date column and shift every
date to its week start, group by (geo when present, week-start date), and
aggregate every numeric column, by mean for the survey metrics and the
`descuento` columns and by sum otherwise.  The final `strftime` is modelled
by keeping the day-number representation. -/
def aggregate_weekly (dateCol : String) (geoCol : Option String) (t : Table) :
    Option Table :=
  match t.cols.findIdx? (fun c => c = dateCol) with
  | none => none
  | some dIdx =>
    match t.rows.mapM (weekConvRow dIdx) with
    | none => none
    | some rows =>
      aggregateBody t.cols
        ((geoCol.bind (fun g => t.cols.findIdx? (fun c => c = g))).toList ++ [dIdx])
        rows

/-! ### Lemmas for the aggregation proofs -/

theorem uniqueFirstAux_eq_self {α : Type} [DecidableEq α] :
    ∀ {l : List α} (seen : List α), l.Nodup → (∀ x ∈ l, x ∉ seen) →
      uniqueFirstAux seen l = l := by
  intro l
  induction l with
  | nil => intro seen _ _; rfl
  | cons x xs ih =>
    intro seen hnd hdis
    rw [uniqueFirstAux, if_neg (hdis x (List.mem_cons_self _ _))]
    congr 1
    refine ih (x :: seen) (List.nodup_cons.mp hnd).2 ?_
    intro y hy hmem
    rcases List.mem_cons.mp hmem with rfl | hseen
    · exact (List.nodup_cons.mp hnd).1 hy
    · exact hdis y (List.mem_cons_of_mem _ hy) hseen

theorem uniqueFirst_eq_self {α : Type} [DecidableEq α] {l : List α}
    (h : l.Nodup) : uniqueFirst l = l :=
  uniqueFirstAux_eq_self [] h (by intro x _ hx; cases hx)

theorem insertionSortB_eq_self {α : Type} {le : α → α → Bool} :
    ∀ {l : List α}, l.Chain' (fun a b => le a b = true) →
      insertionSortB le l = l := by
  intro l
  induction l with
  | nil => intro _; rfl
  | cons x xs ih =>
    intro hch
    cases xs with
    | nil => simp [insertionSortB, orderedInsertB]
    | cons y ys =>
      obtain ⟨hxy, htail⟩ := List.chain'_cons.mp hch
      rw [insertionSortB, ih htail, orderedInsertB, if_pos hxy]

theorem filter_key_singleton {α β : Type} [DecidableEq β] (f : α → β) :
    ∀ {l : List α}, (l.map f).Nodup → ∀ {a}, a ∈ l →
      l.filter (fun x => f x = f a) = [a] := by
  intro l
  induction l with
  | nil => intro _ a ha; cases ha
  | cons b t ih =>
    intro hnd a ha
    have hnd2 : (∀ x ∈ t, ¬ f x = f b) ∧ (t.map f).Nodup := by simpa using hnd
    rcases List.mem_cons.mp ha with heq | hat
    · rw [heq]
      rw [List.filter_cons_of_pos (by simp)]
      have hnil : t.filter (fun x => f x = f b) = [] := by
        rw [List.filter_eq_nil_iff]
        intro x hx
        simp only [decide_eq_true_eq]
        exact hnd2.1 x hx
      rw [hnil]
    · rw [List.filter_cons_of_neg ?_]
      · exact ih hnd2.2 hat
      · simp only [decide_eq_true_eq]
        intro he
        exact hnd2.1 a hat (by rw [he])

theorem map_getD_range {α : Type} (l : List α) (d : α) :
    ∀ (k : Nat), k ≤ l.length →
      (List.range k).map (fun i => l.getD i d) = l.take k := by
  intro k
  induction k with
  | zero => intro _; simp
  | succ n ih =>
    intro hk
    rw [List.range_succ, List.map_append, ih (by omega), List.map_singleton,
      List.take_succ, List.getElem?_eq_getElem (by omega)]
    rw [List.getD_eq_getElem?_getD, List.getElem?_eq_getElem (by omega)]
    rfl

theorem map_getD_range' {α : Type} (l : List α) (d : α) :
    ∀ (m k : Nat), l.length = k + m →
      (List.range' k m).map (fun i => l.getD i d) = l.drop k := by
  intro m
  induction m with
  | zero =>
    intro k hk
    rw [List.range'_zero, List.map_nil, List.drop_eq_nil_of_le (by omega)]
  | succ n ih =>
    intro k hk
    rw [List.range'_succ, List.map_cons, ih (k + 1) (by omega)]
    rw [@List.drop_eq_getElem_cons _ k l (by omega)]
    congr 1
    rw [List.getD_eq_getElem?_getD, List.getElem?_eq_getElem (by omega)]
    rfl

theorem filter_range_split (k m : Nat) (p : Nat → Bool)
    (h1 : ∀ i, i < k → p i = false) (h2 : ∀ i, k ≤ i → i < k + m → p i = true) :
    (List.range (k + m)).filter p = List.range' k m := by
  rw [List.range_add, List.filter_append]
  have e1 : (List.range k).filter p = [] := by
    rw [List.filter_eq_nil_iff]
    intro a ha
    rw [h1 a (List.mem_range.mp ha)]
    simp
  have e2 : ((List.range m).map (fun x => k + x)).filter p =
      (List.range m).map (fun x => k + x) := by
    rw [List.filter_eq_self]
    intro a ha
    obtain ⟨x, hx, rfl⟩ := List.mem_map.mp ha
    exact h2 (k + x) (by omega) (by have := List.mem_range.mp hx; omega)
  rw [e1, e2, List.nil_append, List.range'_eq_map_range]

/-! ### Claim C5: aggregation idempotence -/

/-- C5, counterexample.  A one-row table whose date is already a week start
(day 4, a Monday) and whose single numeric `spend` cell is missing: the
`spend` column is sum-aggregated, and the pandas sum of an all-missing group
is 0, so the aggregator changes the missing value to 0 and the output
differs from the input. -/
theorem C5_counterexample :
    weekday 4 = 0 ∧
    aggregate_weekly "time" none
        { cols := ["time", "spend"], rows := [[.date 4, .na]] } =
      some { cols := ["time", "spend"], rows := [[.date 4, .num 0]] } ∧
    some ({ cols := ["time", "spend"], rows := [[.date 4, .na]] } : Table) ≠
      some ({ cols := ["time", "spend"], rows := [[.date 4, .num 0]] } : Table) :=
  ⟨by decide, by decide, by decide⟩

/-- The aggregation body is the identity on tables already in aggregated
form: group keys at the first `k` columns, non-missing and non-numeric, all
other columns numeric, no missing value in a sum-aggregated column, keys
pairwise distinct and rows sorted by key. -/
theorem aggregateBody_id (cols : List String) (k : Nat) (rows : List (List Val))
    (hk : k ≤ cols.length)
    (hrect : ∀ r ∈ rows, r.length = cols.length)
    (hkeysna : ∀ r ∈ rows, ∀ i, i < k → cellAt i r ≠ Val.na)
    (hkeynum : ∀ i, i < k → colNumeric rows i = false)
    (hnum : ∀ i, k ≤ i → i < cols.length → colNumeric rows i = true)
    (hnumcell : ∀ r ∈ rows, ∀ i, k ≤ i → i < cols.length →
      isNumCell (cellAt i r) = true)
    (hsum : ∀ r ∈ rows, ∀ i, k ≤ i → i < cols.length →
      isMeanCol (cols.getD i "") = false → cellAt i r ≠ Val.na)
    (hkeys : (rows.map (rowKey (List.range k))).Nodup)
    (hsorted : rows.Chain' (fun r1 r2 =>
      keyLeB (rowKey (List.range k) r1) (rowKey (List.range k) r2) = true)) :
    aggregateBody cols (List.range k) rows = some { cols := cols, rows := rows } := by
  have hnumidx : numericIdxs cols rows = List.range' k (cols.length - k) := by
    rw [numericIdxs]
    have hsplit := filter_range_split k (cols.length - k) (fun i => colNumeric rows i)
      (fun i hi => hkeynum i hi) (fun i hge hlt => hnum i hge (by omega))
    have hlen : k + (cols.length - k) = cols.length := by omega
    rw [hlen] at hsplit
    exact hsplit
  have hflt : rows.filter (fun r =>
      (List.range k).all (fun i => cellAt i r ≠ Val.na)) = rows := by
    rw [List.filter_eq_self]
    intro r hr
    rw [List.all_eq_true]
    intro i hi
    simp only [decide_eq_true_eq]
    exact hkeysna r hr i (List.mem_range.mp hi)
  have hkeyseq : insertionSortB keyLeB (uniqueFirst
      (rows.map (rowKey (List.range k)))) = rows.map (rowKey (List.range k)) := by
    rw [uniqueFirst_eq_self hkeys]
    exact insertionSortB_eq_self ((List.chain'_map _).mpr hsorted)
  have hrowseq : (rows.map (rowKey (List.range k))).map
      (aggRow cols (List.range k) (List.range' k (cols.length - k)) rows) = rows := by
    rw [List.map_map]
    refine (List.map_congr_left ?_).trans (List.map_id rows)
    intro r hr
    show aggRow cols (List.range k) (List.range' k (cols.length - k)) rows
        (rowKey (List.range k) r) = r
    rw [aggRow, filter_key_singleton (rowKey (List.range k)) hkeys hr]
    have hkey : rowKey (List.range k) r = r.take k := by
      rw [rowKey]
      exact map_getD_range r Val.na k (by rw [hrect r hr]; exact hk)
    have hagg : (List.range' k (cols.length - k)).map (fun i =>
        aggColumn (isMeanCol (cols.getD i ""))
          (([r] : List (List Val)).map (cellAt i))) = r.drop k := by
      have hstep : ∀ i ∈ List.range' k (cols.length - k),
          aggColumn (isMeanCol (cols.getD i ""))
            (([r] : List (List Val)).map (cellAt i)) = cellAt i r := by
        intro i hi
        obtain ⟨j, hj, hij⟩ := List.mem_range'.mp hi
        have hge : k ≤ i := by omega
        have hlt : i < cols.length := by omega
        rw [List.map_singleton]
        rcases hcell : cellAt i r with _ | q | sv | dd
        · cases hm : isMeanCol (cols.getD i "") with
          | false => exact absurd hcell (hsum r hr i hge hlt hm)
          | true =>
            simp only [aggColumn, hm, if_true]
            rfl
        · cases hm : isMeanCol (cols.getD i "") with
          | false =>
            simp only [aggColumn, hm, Bool.false_eq_true, if_false]
            show Val.num (([Val.num q].filterMap toNumQ).sum) = Val.num q
            simp [toNumQ]
          | true =>
            simp only [aggColumn, hm, if_true]
            show meanAgg [Val.num q] = Val.num q
            rw [meanAgg]
            show Val.num (([q] : List ℚ).sum / (([q] : List ℚ).length : ℚ)) = Val.num q
            simp
        · exfalso
          have := hnumcell r hr i hge hlt
          rw [hcell] at this
          simp [isNumCell] at this
        · exfalso
          have := hnumcell r hr i hge hlt
          rw [hcell] at this
          simp [isNumCell] at this
      rw [List.map_congr_left hstep]
      exact map_getD_range' r Val.na (cols.length - k) k (by rw [hrect r hr]; omega)
    rw [hkey, hagg, List.take_append_drop]
  have houtcols : (List.range k).map (fun i => cols.getD i "") ++
      (List.range' k (cols.length - k)).map (fun i => cols.getD i "") = cols := by
    rw [map_getD_range cols "" k hk, map_getD_range' cols "" (cols.length - k) k (by omega),
      List.take_append_drop]
  have hctn : ((List.range' k (cols.length - k)).any
      (fun i => (List.range k).contains i)) = false := by
    rw [List.any_eq_false]
    intro i hi
    obtain ⟨j, hj, hij⟩ := List.mem_range'.mp hi
    simp only [List.elem_iff, List.mem_range]
    omega
  rw [aggregateBody, hnumidx, hflt, hkeyseq, hrowseq, houtcols,
    if_neg (by rw [hctn]; exact Bool.false_ne_true)]

/-- Number of group key columns: the week-start date, preceded by the geo
column when grouping is per geo. -/
def keyWidth : Option String → Nat
  | some _ => 2
  | none => 1

/-- The group key column names, in grouping order. -/
def keyNames (dateCol : String) : Option String → List String
  | some g => [g, dateCol]
  | none => [dateCol]

/-- C5, amended.  The aggregator is the identity on tables already in
weekly-aggregated form: columns are the group keys (geo when present, then
the date column) followed by numeric columns only, every date is a
week-start date, at most one row per (geo, week-start) key, rows sorted by
group key, geo values are strings, and no missing value sits in a
sum-aggregated column (missing values under `sum` collapse to 0, the
counterexample; missing values under `mean` survive unchanged and stay
allowed). -/
theorem C5_amended_idempotent (dateCol : String) (geoCol : Option String)
    (rest : List String) (t : Table)
    (hgd : ∀ g, geoCol = some g → g ≠ dateCol)
    (hcols : t.cols = keyNames dateCol geoCol ++ rest)
    (hrect : ∀ r ∈ t.rows, r.length = t.cols.length)
    (hne : t.rows ≠ [])
    (hdates : ∀ r ∈ t.rows, ∃ d,
      cellAt (keyWidth geoCol - 1) r = Val.date d ∧ weekday d = 0)
    (hgeostr : ∀ g, geoCol = some g → ∀ r ∈ t.rows, ∃ sv, cellAt 0 r = Val.str sv)
    (hnumcell : ∀ r ∈ t.rows, ∀ i, keyWidth geoCol ≤ i → i < t.cols.length →
      isNumCell (cellAt i r) = true)
    (hsum : ∀ r ∈ t.rows, ∀ i, keyWidth geoCol ≤ i → i < t.cols.length →
      isMeanCol (t.cols.getD i "") = false → cellAt i r ≠ Val.na)
    (hkeys : (t.rows.map (rowKey (List.range (keyWidth geoCol)))).Nodup)
    (hsorted : t.rows.Chain' (fun r1 r2 =>
      keyLeB (rowKey (List.range (keyWidth geoCol)) r1)
        (rowKey (List.range (keyWidth geoCol)) r2) = true)) :
    aggregate_weekly dateCol geoCol t = some t := by
  obtain ⟨r0, hr0⟩ := List.exists_mem_of_ne_nil _ hne
  have hklen : keyWidth geoCol ≤ t.cols.length := by
    rw [hcols]
    cases geoCol <;> simp [keyWidth, keyNames]
  have hdna : ∀ r ∈ t.rows, cellAt (keyWidth geoCol - 1) r ≠ Val.na := by
    intro r hr he
    obtain ⟨d, hd2, _⟩ := hdates r hr
    rw [he] at hd2
    cases hd2
  have hmapm : t.rows.mapM (weekConvRow (keyWidth geoCol - 1)) = some t.rows := by
    refine mapM_eq_some_self (fun r hr => ?_)
    obtain ⟨d, hd2, hwd⟩ := hdates r hr
    rw [weekConvRow, hd2]
    show some (r.set (keyWidth geoCol - 1) (Val.date (weekStart d))) = some r
    have hws : weekStart d = d := by
      rw [weekStart, hwd, sub_zero]
    rw [hws]
    rw [cellAt] at hd2
    rw [← hd2, set_getD_self]
  have hdatenum : colNumeric t.rows (keyWidth geoCol - 1) = false := by
    rw [colNumeric, List.all_eq_false]
    refine ⟨r0, hr0, ?_⟩
    obtain ⟨d, hd2, _⟩ := hdates r0 hr0
    rw [hd2]
    simp [isNumCell]
  have hbody := aggregateBody_id t.cols (keyWidth geoCol) t.rows hklen hrect
    (by
      intro r hr i hik
      cases hgc : geoCol with
      | none =>
        rw [hgc] at hik
        have hi0 : i = 0 := by simpa [keyWidth] using Nat.lt_one_iff.mp (by
          simpa [keyWidth, hgc] using hik)
        subst hi0
        have := hdna r hr
        rw [hgc] at this
        simpa [keyWidth] using this
      | some g =>
        rw [hgc] at hik
        simp only [keyWidth] at hik
        interval_cases i
        · obtain ⟨sv, hsv⟩ := hgeostr g hgc r hr
          rw [hsv]
          exact fun he => by cases he
        · have := hdna r hr
          rw [hgc] at this
          simpa [keyWidth] using this)
    (by
      intro i hik
      cases hgc : geoCol with
      | none =>
        rw [hgc] at hik
        have hi0 : i = 0 := Nat.lt_one_iff.mp (by simpa [keyWidth, hgc] using hik)
        subst hi0
        have := hdatenum
        rw [hgc] at this
        simpa [keyWidth] using this
      | some g =>
        rw [hgc] at hik
        simp only [keyWidth] at hik
        interval_cases i
        · rw [colNumeric, List.all_eq_false]
          refine ⟨r0, hr0, ?_⟩
          obtain ⟨sv, hsv⟩ := hgeostr g hgc r0 hr0
          rw [hsv]
          simp [isNumCell]
        · have := hdatenum
          rw [hgc] at this
          simpa [keyWidth] using this)
    (by
      intro i hge hlt
      rw [colNumeric, List.all_eq_true]
      intro r hr
      exact hnumcell r hr i hge hlt)
    hnumcell hsum hkeys hsorted
  cases hgc : geoCol with
  | none =>
    rw [hgc] at hcols
    have hcols1 : t.cols = dateCol :: rest := by simpa [keyNames] using hcols
    have hd : t.cols.findIdx? (fun c => c = dateCol) = some 0 := by
      rw [List.findIdx?_eq_some_iff_findIdx_eq]
      constructor
      · rw [hcols1]; simp
      · rw [hcols1, List.findIdx_cons]; simp
    rw [aggregate_weekly, hd]
    show (match t.rows.mapM (weekConvRow 0) with
      | none => none
      | some rows => aggregateBody t.cols
          (((none : Option String).bind
            (fun g => t.cols.findIdx? (fun c => c = g))).toList ++ [0]) rows) = some t
    rw [hgc] at hmapm
    have hmapm0 : t.rows.mapM (weekConvRow 0) = some t.rows := by
      simpa [keyWidth] using hmapm
    rw [hmapm0]
    show aggregateBody t.cols [0] t.rows = some t
    have h01 : ([0] : List Nat) = List.range 1 := by decide
    rw [h01]
    rw [hgc] at hbody
    simp only [keyWidth] at hbody
    exact hbody
  | some g =>
    rw [hgc] at hcols
    have hcols2 : t.cols = g :: dateCol :: rest := by simpa [keyNames] using hcols
    have hgne : ¬ (g = dateCol) := hgd g hgc
    have hd : t.cols.findIdx? (fun c => c = dateCol) = some 1 := by
      rw [List.findIdx?_eq_some_iff_findIdx_eq]
      constructor
      · rw [hcols2]; simp
      · rw [hcols2, List.findIdx_cons, List.findIdx_cons]
        simp [hgne]
    have hgidx : t.cols.findIdx? (fun c => c = g) = some 0 := by
      rw [List.findIdx?_eq_some_iff_findIdx_eq]
      constructor
      · rw [hcols2]; simp
      · rw [hcols2, List.findIdx_cons]; simp
    rw [aggregate_weekly, hd]
    show (match t.rows.mapM (weekConvRow 1) with
      | none => none
      | some rows => aggregateBody t.cols
          (((some g).bind
            (fun gg => t.cols.findIdx? (fun c => c = gg))).toList ++ [1]) rows) = some t
    rw [hgc] at hmapm
    have hmapm1 : t.rows.mapM (weekConvRow 1) = some t.rows := by
      simpa [keyWidth] using hmapm
    rw [hmapm1]
    show aggregateBody t.cols ((t.cols.findIdx? (fun c => c = g)).toList ++ [1])
        t.rows = some t
    rw [hgidx]
    show aggregateBody t.cols [0, 1] t.rows = some t
    have h01 : ([0, 1] : List Nat) = List.range 2 := by decide
    rw [h01]
    rw [hgc] at hbody
    simp only [keyWidth] at hbody
    exact hbody

/-- Concrete weekly-form table for the C5 witness (days 4 and 11 are
Mondays; the missing `nps` value is mean-aggregated and survives). -/
def tC5 : Table :=
  { cols := ["time", "nps", "spend"],
    rows := [[.date 4, .na, .num 5], [.date 11, .num 3, .num 6]] }

/-- C5, witness: the aggregator returns the witness table unchanged. -/
theorem C5_amended_idempotent_witness :
    aggregate_weekly "time" none tC5 = some tC5 :=
  C5_amended_idempotent "time" none ["nps", "spend"] tC5
    (by intro g hg; cases hg)
    (by decide) (by decide) (by decide)
    (by
      intro r hr
      have hcases : r = [Val.date 4, Val.na, Val.num 5] ∨
          r = [Val.date 11, Val.num 3, Val.num 6] := by
        simpa [tC5] using hr
      rcases hcases with rfl | rfl
      · exact ⟨4, rfl, by decide⟩
      · exact ⟨11, rfl, by decide⟩)
    (by intro g hg; cases hg)
    (by decide) (by decide) (by decide)
    (by
      have h12 : keyLeB
          (rowKey (List.range (keyWidth none)) [Val.date 4, Val.na, Val.num 5])
          (rowKey (List.range (keyWidth none)) [Val.date 11, Val.num 3, Val.num 6]) =
          true := by decide
      exact List.chain'_cons.mpr ⟨h12, List.chain'_singleton _⟩)

/-! ### Claim C10: columns of the weekly aggregation output -/

/-- The group key column names of the aggregation output: the geo column
when it is configured and present, then the date column. -/
def weeklyKeyCols (cols : List String) (dateCol : String)
    (geoCol : Option String) : List String :=
  (match geoCol with
   | some g => if g ∈ cols then [g] else []
   | none => []) ++ [dateCol]

/-- C10.  The aggregation output has exactly the group key columns (the geo
column when present, then the date column) followed by the numeric columns
of the date-converted input in their original order; every non-numeric
non-key input column is absent from the output. -/
theorem C10_weekly_columns (dateCol : String) (geoCol : Option String)
    (t out : Table) (hnd : t.cols.Nodup)
    (h : aggregate_weekly dateCol geoCol t = some out) :
    ∃ rows, t.rows.mapM (weekConvRow (t.cols.findIdx (fun c => c = dateCol))) =
        some rows ∧
      out.cols = weeklyKeyCols t.cols dateCol geoCol ++
        (numericIdxs t.cols rows).map (fun i => t.cols.getD i "") ∧
      (∀ i, i < t.cols.length → colNumeric rows i = false →
        t.cols.getD i "" ∉ weeklyKeyCols t.cols dateCol geoCol →
        t.cols.getD i "" ∉ out.cols) := by
  rw [aggregate_weekly] at h
  split at h
  · exact absurd h (by simp)
  · rename_i dIdx hd
    split at h
    · exact absurd h (by simp)
    · rename_i rows hrows
      obtain ⟨hdlt, hdfi, hdp⟩ := findIdx?_some_facts hd
      have hdname : t.cols.getD dIdx "" = dateCol := by simpa using hdp
      rw [hdfi]
      rw [aggregateBody] at h
      split_ifs at h with hcontains
      have hcolseq : out.cols =
          ((geoCol.bind (fun g => t.cols.findIdx? (fun c => c = g))).toList ++
            [dIdx]).map (fun i => t.cols.getD i "") ++
          (numericIdxs t.cols rows).map (fun i => t.cols.getD i "") :=
        (congrArg Table.cols (Option.some.inj h)).symm
      have hgrp : ((geoCol.bind (fun g =>
          t.cols.findIdx? (fun c => c = g))).toList ++ [dIdx]).map
            (fun i => t.cols.getD i "") = weeklyKeyCols t.cols dateCol geoCol := by
        cases hgc : geoCol with
        | none =>
          simp only [Option.bind, Option.toList, List.nil_append, List.map_cons,
            List.map_nil, weeklyKeyCols, hdname]
        | some g =>
          cases hfg : t.cols.findIdx? (fun c => c = g) with
          | none =>
            have hnotin : g ∉ t.cols := by
              intro hmem
              have := List.findIdx?_eq_none_iff.mp hfg g hmem
              simp at this
            simp only [Option.bind, hfg, Option.toList, List.nil_append, List.map_cons,
              List.map_nil, weeklyKeyCols, hdname, if_neg hnotin]
          | some gIdx =>
            obtain ⟨hglt, _, hgp⟩ := findIdx?_some_facts hfg
            have hgname : t.cols.getD gIdx "" = g := by simpa using hgp
            have hgin : g ∈ t.cols := by
              rw [← hgname, List.getD_eq_getElem?_getD, List.getElem?_eq_getElem hglt]
              exact List.getElem_mem hglt
            simp only [Option.bind, hfg, Option.toList, List.map_append, List.map_cons,
              List.map_nil, weeklyKeyCols, hdname, hgname, if_pos hgin]
      refine ⟨rows, hrows, by rw [hcolseq, hgrp], ?_⟩
      intro i hi hnonnum hnonkey
      rw [hcolseq, List.mem_append, hgrp]
      rintro (hkey | hnum)
      · exact hnonkey hkey
      · obtain ⟨j, hj, hje⟩ := List.mem_map.mp hnum
        have hjfacts := List.mem_filter.mp hj
        have hjlt : j < t.cols.length := List.mem_range.mp hjfacts.1
        have hjnum : colNumeric rows j = true := hjfacts.2
        have hij : j = i := by
          have h1 : t.cols.getD j "" = t.cols[j] := by
            rw [List.getD_eq_getElem?_getD, List.getElem?_eq_getElem hjlt]
            rfl
          have h2 : t.cols.getD i "" = t.cols[i] := by
            rw [List.getD_eq_getElem?_getD, List.getElem?_eq_getElem hi]
            rfl
          have : t.cols[j] = t.cols[i] := by rw [← h1, ← h2, hje]
          exact (hnd.getElem_inj_iff).mp this
        rw [hij] at hjnum
        rw [hjnum] at hnonnum
        cases hnonnum

/-- Concrete table for the C10 witness: `spend` is numeric, `city` is a text
column dropped by the aggregation. -/
def tC10 : Table :=
  { cols := ["time", "spend", "city"],
    rows := [[.date 4, .num 5, .str "x"], [.date 5, .num 6, .str "y"]] }

/-- The aggregated C10 witness table. -/
def outC10 : Table :=
  (aggregate_weekly "time" none tC10).getD { cols := [], rows := [] }

/-- C10, witness at a concrete table with a dropped text column. -/
theorem C10_weekly_columns_witness :
    ∃ rows, tC10.rows.mapM (weekConvRow (tC10.cols.findIdx (fun c => c = "time"))) =
        some rows ∧
      outC10.cols = weeklyKeyCols tC10.cols "time" none ++
        (numericIdxs tC10.cols rows).map (fun i => tC10.cols.getD i "") ∧
      (∀ i, i < tC10.cols.length → colNumeric rows i = false →
        tC10.cols.getD i "" ∉ weeklyKeyCols tC10.cols "time" none →
        tC10.cols.getD i "" ∉ outC10.cols) :=
  C10_weekly_columns "time" none tC10 outC10 (by decide) (by rfl)

/-! ### `rename_kpi_columns` of the source (claims C6, C7, C8) -/

/-- Elementwise float division of two cells
(`df[revenue_col] / df[kpi_col]`): a missing operand propagates.  The IEEE
inf / NaN values at a zero divisor are not modelled exactly (rational
division by zero yields 0); no claim depends on the value produced there. -/
def vdiv : Val → Val → Val
  | .num a, .num b => .num (a / b)
  | _, _ => .na

/-- A semantic role with neither its configured source column nor its
canonical column present. -/
def roleMissing (src canonical : String) (t : Table) : Prop :=
  src ∉ t.cols ∧ canonical ∉ t.cols

/-- The rename dictionary built by `rename_kpi_columns`, in insertion order
(kpi, then revenue, then population). -/
def renameEntries (kpi_col revenue_col population_col : String) (t : Table) :
    List (String × String) :=
  (if kpi_col ∈ t.cols then [(kpi_col, "conversions")] else []) ++
  (if revenue_col ∈ t.cols then [(revenue_col, "revenue_per_conversion")] else []) ++
  (if population_col ∈ t.cols then [(population_col, "population")] else [])

/-- Application of the rename dictionary to one column name; as in a Python
dict, a later insertion with the same source name overwrites an earlier
one, so the last matching entry wins. -/
def applyRename (entries : List (String × String)) (c : String) : String :=
  entries.foldl (fun acc e => if e.1 = c then e.2 else acc) c

/-- The configured column names of missing roles, in evaluation order (kpi,
revenue, population): the list interpolated into the `ValueError` message. -/
def missingRoles (kpi_col revenue_col population_col : String) (t : Table) :
    List String :=
  (if kpi_col ∉ t.cols ∧ "conversions" ∉ t.cols then [kpi_col] else []) ++
  (if revenue_col ∉ t.cols ∧ "revenue_per_conversion" ∉ t.cols then [revenue_col]
   else []) ++
  (if population_col ∉ t.cols ∧ "population" ∉ t.cols then [population_col] else [])

/-- `rename_kpi_columns` of the source, with the raised `ValueError`
modelled as an `Except.error` carrying the missing-column list that the
message interpolates.  When `compute_per_conversion` is set and both the
revenue and kpi source columns are present, the revenue column is divided
elementwise by the kpi column before renaming.  (In the source the division
mutates the frame before the missing check can raise; the model's error
branch discards the frame, which is indistinguishable at the function's
return value.) -/
def rename_kpi_columns (kpi_col revenue_col population_col : String)
    (compute_per_conversion : Bool) (t : Table) : Except (List String) Table :=
  if missingRoles kpi_col revenue_col population_col t ≠ [] then
    .error (missingRoles kpi_col revenue_col population_col t)
  else
    .ok { cols := t.cols.map
            (applyRename (renameEntries kpi_col revenue_col population_col t)),
          rows :=
            if compute_per_conversion ∧ revenue_col ∈ t.cols ∧ kpi_col ∈ t.cols then
              t.rows.map (fun r =>
                r.set (t.cols.findIdx (fun c => c = revenue_col))
                  (vdiv (cellAt (t.cols.findIdx (fun c => c = revenue_col)) r)
                    (cellAt (t.cols.findIdx (fun c => c = kpi_col)) r)))
            else t.rows }

/-! ### Claim C6: semantic-mapping idempotence -/

/-- Canonical-named table whose kpi cell is missing, for the C6
counterexample. -/
def tC6 : Table :=
  { cols := ["conversions", "revenue_per_conversion", "population"],
    rows := [[.na, .num 10, .num 1]] }

/-- The mapper output at `tC6`. -/
def outC6 : Table :=
  match rename_kpi_columns "conversions" "revenue_per_conversion" "population"
      true tC6 with
  | .ok t2 => t2
  | .error _ => tC6

/-- C6, counterexample.  A table already bearing the three canonical names,
mapped under the default configured source names (which coincide with the
canonical names) and the compute-per-conversion flag: the mapper divides
the revenue column by the kpi column in place (10 divided by the missing
kpi value yields missing), so the table is changed: the mapper is not a
no-op for every configured source naming and flag value. -/
theorem C6_counterexample :
    rename_kpi_columns "conversions" "revenue_per_conversion" "population"
        true tC6 = .ok outC6 ∧
    outC6 ≠ tC6 :=
  ⟨rfl, by decide⟩

/-- C6, amended.  The mapper is a no-op on a table that already bears the
three canonical names, provided none of the configured source names occurs
among the table's columns (the sole situation in which the spec's
idempotence sentence applies verbatim); in that case any flag value is
allowed, and running the mapper twice equals running it once. -/
theorem C6_amended_noop (kpi_col revenue_col population_col : String)
    (f : Bool) (t : Table)
    (hc1 : "conversions" ∈ t.cols) (hc2 : "revenue_per_conversion" ∈ t.cols)
    (hc3 : "population" ∈ t.cols)
    (hk : kpi_col ∉ t.cols) (hr : revenue_col ∉ t.cols)
    (hp : population_col ∉ t.cols) :
    rename_kpi_columns kpi_col revenue_col population_col f t = .ok t ∧
    (rename_kpi_columns kpi_col revenue_col population_col f t).bind
      (fun t2 => rename_kpi_columns kpi_col revenue_col population_col f t2) =
      .ok t := by
  have hmiss : missingRoles kpi_col revenue_col population_col t = [] := by
    rw [missingRoles, if_neg (fun hco => hco.2 hc1), if_neg (fun hco => hco.2 hc2),
      if_neg (fun hco => hco.2 hc3)]
    rfl
  have hok : rename_kpi_columns kpi_col revenue_col population_col f t = .ok t := by
    rw [rename_kpi_columns, if_neg (by rw [hmiss]; simp)]
    have hrows : (if f = true ∧ revenue_col ∈ t.cols ∧ kpi_col ∈ t.cols then
        t.rows.map (fun r =>
          r.set (t.cols.findIdx (fun c => c = revenue_col))
            (vdiv (cellAt (t.cols.findIdx (fun c => c = revenue_col)) r)
              (cellAt (t.cols.findIdx (fun c => c = kpi_col)) r)))
        else t.rows) = t.rows := by
      rw [if_neg (fun hand => hr hand.2.1)]
    have hents : renameEntries kpi_col revenue_col population_col t = [] := by
      rw [renameEntries, if_neg hk, if_neg hr, if_neg hp]
      rfl
    have hcols : t.cols.map
        (applyRename (renameEntries kpi_col revenue_col population_col t)) =
        t.cols := by
      rw [hents]
      exact (List.map_congr_left (fun c _ => rfl)).trans (List.map_id t.cols)
    rw [hrows, hcols]
  refine ⟨hok, ?_⟩
  rw [hok]
  show rename_kpi_columns kpi_col revenue_col population_col f t = .ok t
  exact hok

/-- Canonical-named table for the C6 witness. -/
def tC6W : Table :=
  { cols := ["conversions", "revenue_per_conversion", "population"],
    rows := [[.num 2, .num 3, .num 1]] }

/-- C6, witness: with absent source names the mapper is a no-op and
composing it with itself still yields the table. -/
theorem C6_amended_noop_witness :
    rename_kpi_columns "k_src" "r_src" "p_src" true tC6W = .ok tC6W ∧
    (rename_kpi_columns "k_src" "r_src" "p_src" true tC6W).bind
      (fun t2 => rename_kpi_columns "k_src" "r_src" "p_src" true t2) =
      .ok tC6W :=
  C6_amended_noop "k_src" "r_src" "p_src" true tC6W (by decide) (by decide)
    (by decide) (by decide) (by decide) (by decide)

/-! ### Claim C7: the missing-role error -/

/-- Table for the C7 counterexample: the aliased configured name `x` serves
as both the kpi and the revenue source. -/
def tC7 : Table :=
  { cols := ["x", "population", "time"], rows := [[.num 1, .num 2, .date 0]] }

/-- The mapper output at `tC7`. -/
def outC7 : Table :=
  match rename_kpi_columns "x" "x" "population" false tC7 with
  | .ok t2 => t2
  | .error _ => tC7

/-- C7, counterexample.  With the kpi and revenue source names both
configured as the present column `x`, no role is missing and the mapper
returns normally, but the later dictionary insertion wins: `x` is renamed
to `revenue_per_conversion`, not to its kpi canonical name `conversions`,
which appears nowhere in the output.  The present kpi source column is
therefore not renamed to its canonical name, contradicting the claim's
success clause. -/
theorem C7_counterexample :
    rename_kpi_columns "x" "x" "population" false tC7 = .ok outC7 ∧
    "x" ∈ tC7.cols ∧
    missingRoles "x" "x" "population" tC7 = [] ∧
    "conversions" ∉ outC7.cols ∧
    outC7.cols = ["revenue_per_conversion", "population", "time"] :=
  ⟨rfl, by decide, by decide, by decide, by decide⟩

theorem missingRoles_nil_iff (k r p : String) (t : Table) :
    missingRoles k r p t = [] ↔
      ¬ roleMissing k "conversions" t ∧ ¬ roleMissing r "revenue_per_conversion" t ∧
      ¬ roleMissing p "population" t := by
  rw [missingRoles, roleMissing, roleMissing, roleMissing]
  split_ifs with h1 h2 h3 <;> simp_all

theorem applyRename_spec (k r p : String) (t : Table) (hkr : k ≠ r)
    (hkp : k ≠ p) (hrp : r ≠ p) (c : String) (hc : c ∈ t.cols) :
    applyRename (renameEntries k r p t) c =
      (if c = k then "conversions" else if c = r then "revenue_per_conversion"
       else if c = p then "population" else c) := by
  by_cases hck : c = k
  · subst hck
    rw [if_pos rfl]
    by_cases hrin : r ∈ t.cols <;> by_cases hpin : p ∈ t.cols <;>
      simp [renameEntries, applyRename, hc, hrin, hpin, List.find?,
        Ne.symm hkr, Ne.symm hkp]
  · by_cases hcr : c = r
    · subst hcr
      rw [if_neg hck, if_pos rfl]
      by_cases hkin : k ∈ t.cols <;> by_cases hpin : p ∈ t.cols <;>
        simp [renameEntries, applyRename, hc, hkin, hpin, List.find?,
          Ne.symm hrp, hck, Ne.symm hck, hkr]
    · by_cases hcp : c = p
      · subst hcp
        rw [if_neg hck, if_neg hcr, if_pos rfl]
        by_cases hkin : k ∈ t.cols <;> by_cases hrin : r ∈ t.cols <;>
          simp [renameEntries, applyRename, hc, hkin, hrin, List.find?, hck, hcr,
            Ne.symm hck, Ne.symm hcr, hkp, hrp]
      · rw [if_neg hck, if_neg hcr, if_neg hcp]
        by_cases hkin : k ∈ t.cols <;> by_cases hrin : r ∈ t.cols <;>
          by_cases hpin : p ∈ t.cols <;>
          simp [renameEntries, applyRename, hkin, hrin, hpin, List.find?,
            hck, hcr, hcp, Ne.symm hck, Ne.symm hcr, Ne.symm hcp]

/-- C7, amended.  Provided the three configured source names are pairwise
distinct: the mapper raises exactly one error if and only if at least one
role has neither its configured source column nor its canonical column
present; when it raises, the (single) error value lists every missing
configured column name; and when no role is missing it returns normally
with each present source column renamed to its canonical name (and all
other column names unchanged). -/
theorem C7_amended_error_contract (kpi_col revenue_col population_col : String)
    (f : Bool) (t : Table) (hkr : kpi_col ≠ revenue_col)
    (hkp : kpi_col ≠ population_col) (hrp : revenue_col ≠ population_col) :
    ((∃ e, rename_kpi_columns kpi_col revenue_col population_col f t = .error e) ↔
      (roleMissing kpi_col "conversions" t ∨
       roleMissing revenue_col "revenue_per_conversion" t ∨
       roleMissing population_col "population" t)) ∧
    (∀ e, rename_kpi_columns kpi_col revenue_col population_col f t = .error e →
      (roleMissing kpi_col "conversions" t → kpi_col ∈ e) ∧
      (roleMissing revenue_col "revenue_per_conversion" t → revenue_col ∈ e) ∧
      (roleMissing population_col "population" t → population_col ∈ e)) ∧
    (∀ t2, rename_kpi_columns kpi_col revenue_col population_col f t = .ok t2 →
      t2.cols = t.cols.map (fun c =>
        if c = kpi_col then "conversions"
        else if c = revenue_col then "revenue_per_conversion"
        else if c = population_col then "population" else c)) := by
  by_cases hmiss : missingRoles kpi_col revenue_col population_col t = []
  · have hok : ∀ e, rename_kpi_columns kpi_col revenue_col population_col f t ≠
        .error e := by
      intro e he
      rw [rename_kpi_columns, if_neg (by rw [hmiss]; simp)] at he
      cases he
    refine ⟨?_, ?_, ?_⟩
    · constructor
      · rintro ⟨e, he⟩
        exact absurd he (hok e)
      · intro hor
        obtain ⟨h1, h2, h3⟩ := (missingRoles_nil_iff _ _ _ _).mp hmiss
        rcases hor with hm | hm | hm
        · exact absurd hm h1
        · exact absurd hm h2
        · exact absurd hm h3
    · intro e he
      exact absurd he (hok e)
    · intro t2 ht2
      rw [rename_kpi_columns, if_neg (by rw [hmiss]; simp)] at ht2
      have hcols := (congrArg Table.cols (Except.ok.inj ht2)).symm
      rw [hcols]
      exact List.map_congr_left
        (fun c hcin => applyRename_spec _ _ _ t hkr hkp hrp c hcin)
  · have herr : rename_kpi_columns kpi_col revenue_col population_col f t =
        .error (missingRoles kpi_col revenue_col population_col t) := by
      rw [rename_kpi_columns, if_pos hmiss]
    have hsome : roleMissing kpi_col "conversions" t ∨
        roleMissing revenue_col "revenue_per_conversion" t ∨
        roleMissing population_col "population" t := by
      by_contra hno
      push_neg at hno
      exact hmiss ((missingRoles_nil_iff _ _ _ _).mpr ⟨hno.1, hno.2.1, hno.2.2⟩)
    refine ⟨?_, ?_, ?_⟩
    · exact ⟨fun _ => hsome, fun _ => ⟨_, herr⟩⟩
    · intro e he
      have hee : e = missingRoles kpi_col revenue_col population_col t := by
        rw [herr] at he
        exact (Except.error.inj he).symm
      subst hee
      refine ⟨?_, ?_, ?_⟩
      · rintro ⟨hm1, hm2⟩
        rw [missingRoles, if_pos (And.intro hm1 hm2)]
        simp
      · rintro ⟨hm1, hm2⟩
        rw [missingRoles, if_pos (And.intro hm1 hm2)]
        simp
      · rintro ⟨hm1, hm2⟩
        rw [missingRoles, if_pos (And.intro hm1 hm2)]
        simp
    · intro t2 ht2
      rw [herr] at ht2
      cases ht2

/-- Table for the C7 witness: present kpi source, canonical revenue and
population already present. -/
def tC7W : Table :=
  { cols := ["kpi_src", "revenue_per_conversion", "population"],
    rows := [[.num 4, .num 3, .num 1]] }

/-- C7, witness at a concrete configuration with pairwise distinct source
names. -/
theorem C7_amended_error_contract_witness :
    ((∃ e, rename_kpi_columns "kpi_src" "r_src" "p_src" false tC7W = .error e) ↔
      (roleMissing "kpi_src" "conversions" tC7W ∨
       roleMissing "r_src" "revenue_per_conversion" tC7W ∨
       roleMissing "p_src" "population" tC7W)) ∧
    (∀ e, rename_kpi_columns "kpi_src" "r_src" "p_src" false tC7W = .error e →
      (roleMissing "kpi_src" "conversions" tC7W → "kpi_src" ∈ e) ∧
      (roleMissing "r_src" "revenue_per_conversion" tC7W → "r_src" ∈ e) ∧
      (roleMissing "p_src" "population" tC7W → "p_src" ∈ e)) ∧
    (∀ t2, rename_kpi_columns "kpi_src" "r_src" "p_src" false tC7W = .ok t2 →
      t2.cols = tC7W.cols.map (fun c =>
        if c = "kpi_src" then "conversions"
        else if c = "r_src" then "revenue_per_conversion"
        else if c = "p_src" then "population" else c)) :=
  C7_amended_error_contract "kpi_src" "r_src" "p_src" false tC7W (by decide)
    (by decide) (by decide)

/-! ### Claim C8: the population default of `main` -/

/-- The population-default step of `main`:
`if population not in merged.columns: merged[population] = 1` — a constant
column 1 appended when (and only when) no column named `population`
exists. -/
def addPopulationIfMissing (t : Table) : Table :=
  if "population" ∈ t.cols then t
  else { cols := t.cols ++ ["population"],
         rows := t.rows.map (fun r => r ++ [Val.num 1]) }

/-- Table for the C8 counterexample: the configured population source
column `pop_src` is present, the canonical `population` column is not. -/
def tC8 : Table := { cols := ["time", "pop_src"], rows := [[.date 0, .num 7]] }

/-- C8, counterexample.  `main` tests only for the canonical name: with the
configured source column `pop_src` present and `population` absent, the
code still creates the constant column (the claim predicts no creation,
since a population column — the source — exists).  The subsequent rename
then produces a duplicate pair of population columns. -/
theorem C8_counterexample :
    addPopulationIfMissing tC8 ≠ tC8 ∧
    "pop_src" ∈ tC8.cols ∧ "population" ∉ tC8.cols ∧
    (addPopulationIfMissing tC8).cols = ["time", "pop_src", "population"] :=
  ⟨by decide, by decide, by decide, by decide⟩

/-- C8, amended.  `main` creates the constant population column (value 1 in
every row) exactly when the canonical `population` column is absent,
regardless of the configured source column; the creation precedes the
semantic-mapping missing-role check, and since the resulting table always
carries a `population` column, that check never reports the population role
as missing (for any configured population source name). -/
theorem C8_amended_population_default (t : Table) :
    (addPopulationIfMissing t = t ↔ "population" ∈ t.cols) ∧
    "population" ∈ (addPopulationIfMissing t).cols ∧
    ("population" ∉ t.cols →
      (addPopulationIfMissing t).cols = t.cols ++ ["population"] ∧
      ∀ r ∈ (addPopulationIfMissing t).rows, r.getLastD Val.na = Val.num 1) ∧
    (∀ p, ¬ roleMissing p "population" (addPopulationIfMissing t)) := by
  by_cases hin : "population" ∈ t.cols
  · rw [addPopulationIfMissing, if_pos hin]
    refine ⟨⟨fun _ => hin, fun _ => rfl⟩, hin, fun hno => absurd hin hno, ?_⟩
    intro p hrm
    exact hrm.2 hin
  · rw [addPopulationIfMissing, if_neg hin]
    refine ⟨?_, ?_, ?_, ?_⟩
    · constructor
      · intro he
        exfalso
        have := congrArg (fun t2 => t2.cols.length) he
        simp at this
      · intro hmem
        exact absurd hmem hin
    · show "population" ∈ t.cols ++ ["population"]
      exact List.mem_append_right _ (List.mem_cons_self _ _)
    · intro _
      refine ⟨rfl, ?_⟩
      intro r hr
      obtain ⟨r0, _, hr0⟩ := List.mem_map.mp hr
      rw [← hr0]
      exact List.getLastD_concat _ _ _
    · intro p hrm
      exact hrm.2 (List.mem_append_right _ (List.mem_cons_self _ _))

/-- C8, witness at the counterexample table. -/
theorem C8_amended_population_default_witness :
    (addPopulationIfMissing tC8 = tC8 ↔ "population" ∈ tC8.cols) ∧
    "population" ∈ (addPopulationIfMissing tC8).cols ∧
    ("population" ∉ tC8.cols →
      (addPopulationIfMissing tC8).cols = tC8.cols ++ ["population"] ∧
      ∀ r ∈ (addPopulationIfMissing tC8).rows, r.getLastD Val.na = Val.num 1) ∧
    (∀ p, ¬ roleMissing p "population" (addPopulationIfMissing tC8)) :=
  C8_amended_population_default tC8

/-! ### Deduplicator and Merger of `main` (claim C9) -/

/-- `df.drop_duplicates(subset, keep = first)`: keep the first row of each
distinct key (`seen` accumulates keys already kept). -/
def dropDupAux {β : Type} [DecidableEq β] (key : List Val → β) (seen : List β) :
    List (List Val) → List (List Val)
  | [] => []
  | r :: rs =>
      if key r ∈ seen then dropDupAux key seen rs
      else r :: dropDupAux key (key r :: seen) rs

/-- `df.drop_duplicates(subset = keyCols)` over a row-key function. -/
def dropDuplicates {β : Type} [DecidableEq β] (key : List Val → β)
    (rows : List (List Val)) : List (List Val) :=
  dropDupAux key [] rows

/-- Indices of the merge key columns in a header. -/
def keyIdxsOf (keyCols : List String) (cols : List String) : List Nat :=
  keyCols.map (fun c => cols.findIdx (fun c2 => c2 = c))

/-- The Deduplicator step of `main` (lines 276-278); `duplicated(subset)`
raises a `KeyError` when a key column is absent. -/
def dedupTable (keyCols : List String) (t : Table) : Option Table :=
  if keyCols.all (fun c => decide (c ∈ t.cols)) then
    some { cols := t.cols,
           rows := dropDuplicates (rowKey (keyIdxsOf keyCols t.cols)) t.rows }
  else none

/-- The merge key columns of `main` (lines 271-273): the date column, plus
`geo` when both tables carry it. -/
def mergeColsFor (dateCol : String) (a b : Table) : List String :=
  [dateCol] ++ (if "geo" ∈ a.cols ∧ "geo" ∈ b.cols then ["geo"] else [])

/-- Cells of a row outside the given column indices (the right table's key
cells are not repeated in a merge output row). -/
def dropIdxs (idxs : List Nat) (r : List Val) : List Val :=
  (r.enum.filter (fun p => p.1 ∉ idxs)).map (fun p => p.2)

/-- `pd.merge(a, b, on = keyCols, how = inner)`: for each left row in
order, the matching right rows in order, appended with the right key cells
dropped; overlapping non-key column names receive the pandas suffixes. -/
def mergeInner (keyCols : List String) (a b : Table) : Table :=
  { cols :=
      a.cols.map (fun c => if c ∉ keyCols ∧ c ∈ b.cols then c ++ "_x" else c) ++
      (b.cols.filter (fun c => c ∉ keyCols)).map
        (fun c => if c ∈ a.cols then c ++ "_y" else c),
    rows :=
      a.rows.flatMap (fun ra =>
        (b.rows.filter (fun rb =>
            rowKey (keyIdxsOf keyCols b.cols) rb =
              rowKey (keyIdxsOf keyCols a.cols) ra)).map
          (fun rb => ra ++ dropIdxs (keyIdxsOf keyCols b.cols) rb)) }

theorem dropDupAux_mem {β : Type} [DecidableEq β] (key : List Val → β) :
    ∀ (rows : List (List Val)) (seen : List β) (r : List Val),
      r ∈ dropDupAux key seen rows → r ∈ rows ∧ key r ∉ seen := by
  intro rows
  induction rows with
  | nil => intro seen r hr; cases hr
  | cons x xs ih =>
    intro seen r hr
    rw [dropDupAux] at hr
    by_cases hx : key x ∈ seen
    · rw [if_pos hx] at hr
      obtain ⟨h1, h2⟩ := ih seen r hr
      exact ⟨List.mem_cons_of_mem _ h1, h2⟩
    · rw [if_neg hx] at hr
      rcases List.mem_cons.mp hr with rfl | hr2
      · exact ⟨List.mem_cons_self _ _, hx⟩
      · obtain ⟨h1, h2⟩ := ih (key x :: seen) r hr2
        exact ⟨List.mem_cons_of_mem _ h1,
          fun hs => h2 (List.mem_cons_of_mem _ hs)⟩

theorem dropDupAux_keys_nodup {β : Type} [DecidableEq β] (key : List Val → β) :
    ∀ (rows : List (List Val)) (seen : List β),
      ((dropDupAux key seen rows).map key).Nodup := by
  intro rows
  induction rows with
  | nil => intro seen; exact List.nodup_nil
  | cons x xs ih =>
    intro seen
    rw [dropDupAux]
    by_cases hx : key x ∈ seen
    · rw [if_pos hx]
      exact ih seen
    · rw [if_neg hx]
      rw [List.map_cons]
      refine List.nodup_cons.mpr ⟨?_, ih (key x :: seen)⟩
      intro hmem
      obtain ⟨r2, hr2, hkr2⟩ := List.mem_map.mp hmem
      have := (dropDupAux_mem key xs (key x :: seen) r2 hr2).2
      rw [hkr2] at this
      exact this (List.mem_cons_self _ _)

theorem dropDupAux_first {β : Type} [DecidableEq β] (key : List Val → β) :
    ∀ (rows : List (List Val)) (seen : List β) (r : List Val),
      r ∈ dropDupAux key seen rows →
      rows.find? (fun x => key x = key r) = some r := by
  intro rows
  induction rows with
  | nil => intro seen r hr; cases hr
  | cons x xs ih =>
    intro seen r hr
    have hnotin := (dropDupAux_mem key (x :: xs) seen r hr).2
    rw [dropDupAux] at hr
    by_cases hx : key x ∈ seen
    · rw [if_pos hx] at hr
      have hne : key x ≠ key r := by
        intro he
        rw [he] at hx
        exact hnotin hx
      rw [List.find?_cons_of_neg _ (by simpa using hne)]
      exact ih seen r hr
    · rw [if_neg hx] at hr
      rcases List.mem_cons.mp hr with rfl | hr2
      · rw [List.find?_cons_of_pos _ (by simp)]
      · have hnotin2 := (dropDupAux_mem key xs (key x :: seen) r hr2).2
        have hne : key x ≠ key r := by
          intro he
          exact hnotin2 (by rw [← he]; exact List.mem_cons_self _ _)
        rw [List.find?_cons_of_neg _ (by simpa using hne)]
        exact ih (key x :: seen) r hr2

theorem length_filter_key_le_one {α β : Type} [DecidableEq β] (g : α → β) :
    ∀ {l : List α}, (l.map g).Nodup → ∀ v,
      (l.filter (fun x => g x = v)).length ≤ 1 := by
  intro l
  induction l with
  | nil => intro _ v; simp
  | cons b t ih =>
    intro hnd v
    have hnd2 : (∀ x ∈ t, ¬ g x = g b) ∧ (t.map g).Nodup := by simpa using hnd
    by_cases hb : g b = v
    · rw [List.filter_cons_of_pos (by simpa using hb)]
      have hnil : t.filter (fun x => g x = v) = [] := by
        rw [List.filter_eq_nil_iff]
        intro x hx
        simp only [decide_eq_true_eq]
        intro he
        exact hnd2.1 x hx (by rw [he, hb])
      rw [hnil]
      simp
    · rw [List.filter_cons_of_neg (by simpa using hb)]
      exact ih hnd2.2 v

theorem rowKey_append {idxs : List Nat} {ra x : List Val}
    (h : ∀ i ∈ idxs, i < ra.length) :
    rowKey idxs (ra ++ x) = rowKey idxs ra := by
  rw [rowKey, rowKey]
  refine List.map_congr_left (fun i hi => ?_)
  rw [cellAt, cellAt, List.getD_append _ _ _ _ (h i hi)]

theorem flatMap_keys_nodup {κ : Type} [DecidableEq κ]
    (keyA keyM : List Val → κ) (f : List Val → List (List Val)) :
    ∀ {l : List (List Val)}, (l.map keyA).Nodup →
      (∀ ra ∈ l, (f ra).length ≤ 1) →
      (∀ ra ∈ l, ∀ m ∈ f ra, keyM m = keyA ra) →
      ((l.flatMap f).map keyM).Nodup := by
  intro l
  induction l with
  | nil => intro _ _ _; simp
  | cons ra rest ih =>
    intro hnd hlen hkey
    have hnd2 : (∀ x ∈ rest, ¬ keyA x = keyA ra) ∧ (rest.map keyA).Nodup := by
      simpa using hnd
    rw [List.flatMap_cons, List.map_append]
    rw [List.nodup_append]
    refine ⟨?_, ?_, ?_⟩
    · match hf : f ra, hlen ra (List.mem_cons_self _ _) with
      | [], _ => simp
      | [m], _ => simp
    · exact ih hnd2.2 (fun x hx => hlen x (List.mem_cons_of_mem _ hx))
        (fun x hx => hkey x (List.mem_cons_of_mem _ hx))
    · intro v hv1 hv2
      obtain ⟨m1, hm1, hkm1⟩ := List.mem_map.mp hv1
      obtain ⟨m2, hm2, hkm2⟩ := List.mem_map.mp hv2
      obtain ⟨ra2, hra2, hmra2⟩ := List.mem_flatMap.mp hm2
      have e1 : v = keyA ra := by
        rw [← hkm1]
        exact hkey ra (List.mem_cons_self _ _) m1 hm1
      have e2 : v = keyA ra2 := by
        rw [← hkm2]
        exact hkey ra2 (List.mem_cons_of_mem _ hra2) m2 hmra2
      exact hnd2.1 ra2 hra2 (by rw [← e2, e1])

/-- C9.  After the Deduplicator each (date, geo) key appears at most once
per table and the retained row is the first occurrence in input order;
after the Merger (inner join of the two deduplicated tables on the key
columns) each key appears at most once, and a key appears only if it is
present in both inputs.  Keys of merged rows are read at the left table's
key positions, where the key cells of a merged row live. -/
theorem C9_join_uniqueness (dateCol : String) (a b da db : Table)
    (hrecta : ∀ r ∈ a.rows, r.length = a.cols.length)
    (hda : dedupTable (mergeColsFor dateCol a b) a = some da)
    (hdb : dedupTable (mergeColsFor dateCol a b) b = some db) :
    (da.rows.map (rowKey (keyIdxsOf (mergeColsFor dateCol a b) a.cols))).Nodup ∧
    (db.rows.map (rowKey (keyIdxsOf (mergeColsFor dateCol a b) b.cols))).Nodup ∧
    (∀ r ∈ da.rows, a.rows.find? (fun x =>
      rowKey (keyIdxsOf (mergeColsFor dateCol a b) a.cols) x =
        rowKey (keyIdxsOf (mergeColsFor dateCol a b) a.cols) r) = some r) ∧
    (∀ r ∈ db.rows, b.rows.find? (fun x =>
      rowKey (keyIdxsOf (mergeColsFor dateCol a b) b.cols) x =
        rowKey (keyIdxsOf (mergeColsFor dateCol a b) b.cols) r) = some r) ∧
    ((mergeInner (mergeColsFor dateCol a b) da db).rows.map
      (rowKey (keyIdxsOf (mergeColsFor dateCol a b) a.cols))).Nodup ∧
    (∀ m ∈ (mergeInner (mergeColsFor dateCol a b) da db).rows,
      rowKey (keyIdxsOf (mergeColsFor dateCol a b) a.cols) m ∈
        a.rows.map (rowKey (keyIdxsOf (mergeColsFor dateCol a b) a.cols)) ∧
      rowKey (keyIdxsOf (mergeColsFor dateCol a b) a.cols) m ∈
        b.rows.map (rowKey (keyIdxsOf (mergeColsFor dateCol a b) b.cols))) := by
  rw [dedupTable] at hda hdb
  split_ifs at hda with hka
  split_ifs at hdb with hkb
  have hda2 : da.rows = dropDuplicates
      (rowKey (keyIdxsOf (mergeColsFor dateCol a b) a.cols)) a.rows :=
    (congrArg Table.rows (Option.some.inj hda)).symm
  have hdb2 : db.rows = dropDuplicates
      (rowKey (keyIdxsOf (mergeColsFor dateCol a b) b.cols)) b.rows :=
    (congrArg Table.rows (Option.some.inj hdb)).symm
  have hcda : da.cols = a.cols := (congrArg Table.cols (Option.some.inj hda)).symm
  have hcdb : db.cols = b.cols := (congrArg Table.cols (Option.some.inj hdb)).symm
  have hidxa : ∀ i ∈ keyIdxsOf (mergeColsFor dateCol a b) a.cols,
      i < a.cols.length := by
    intro i hi
    obtain ⟨c, hc, hci⟩ := List.mem_map.mp hi
    have hcin : c ∈ a.cols := by
      have := List.all_eq_true.mp hka c hc
      simpa using this
    rw [← hci]
    exact List.findIdx_lt_length.mpr ⟨c, hcin, by simp⟩
  have hsub_a : ∀ r ∈ da.rows, r ∈ a.rows := by
    intro r hr
    rw [hda2] at hr
    exact (dropDupAux_mem _ _ _ r hr).1
  have hsub_b : ∀ r ∈ db.rows, r ∈ b.rows := by
    intro r hr
    rw [hdb2] at hr
    exact (dropDupAux_mem _ _ _ r hr).1
  have hnda : (da.rows.map
      (rowKey (keyIdxsOf (mergeColsFor dateCol a b) a.cols))).Nodup := by
    rw [hda2]
    exact dropDupAux_keys_nodup _ _ _
  have hndb : (db.rows.map
      (rowKey (keyIdxsOf (mergeColsFor dateCol a b) b.cols))).Nodup := by
    rw [hdb2]
    exact dropDupAux_keys_nodup _ _ _
  have hprefix : ∀ ra ∈ da.rows, ∀ x,
      rowKey (keyIdxsOf (mergeColsFor dateCol a b) a.cols) (ra ++ x) =
        rowKey (keyIdxsOf (mergeColsFor dateCol a b) a.cols) ra := by
    intro ra hra x
    refine rowKey_append (fun i hi => ?_)
    rw [hrecta ra (hsub_a ra hra)]
    exact hidxa i hi
  refine ⟨hnda, hndb, ?_, ?_, ?_, ?_⟩
  · intro r hr
    rw [hda2] at hr
    exact dropDupAux_first _ _ _ r hr
  · intro r hr
    rw [hdb2] at hr
    exact dropDupAux_first _ _ _ r hr
  · simp only [mergeInner, hcda, hcdb]
    refine flatMap_keys_nodup
      (rowKey (keyIdxsOf (mergeColsFor dateCol a b) a.cols))
      (rowKey (keyIdxsOf (mergeColsFor dateCol a b) a.cols)) _ hnda ?_ ?_
    · intro ra _
      rw [List.length_map]
      exact length_filter_key_le_one _ hndb _
    · intro ra hra m hm
      obtain ⟨rb, _, hrb2⟩ := List.mem_map.mp hm
      rw [← hrb2]
      exact hprefix ra hra _
  · intro m hm
    simp only [mergeInner, hcda, hcdb] at hm
    obtain ⟨ra, hra, hm2⟩ := List.mem_flatMap.mp hm
    obtain ⟨rb, hrb, hrb2⟩ := List.mem_map.mp hm2
    have hkeym : rowKey (keyIdxsOf (mergeColsFor dateCol a b) a.cols) m =
        rowKey (keyIdxsOf (mergeColsFor dateCol a b) a.cols) ra := by
      rw [← hrb2]
      exact hprefix ra hra _
    have hfb := List.mem_filter.mp hrb
    have hkeyb : rowKey (keyIdxsOf (mergeColsFor dateCol a b) b.cols) rb =
        rowKey (keyIdxsOf (mergeColsFor dateCol a b) a.cols) ra := by
      have := hfb.2
      simpa using this
    constructor
    · rw [hkeym]
      exact List.mem_map_of_mem _ (hsub_a ra hra)
    · rw [hkeym, ← hkeyb]
      exact List.mem_map_of_mem _ (hsub_b rb hfb.1)

/-- Left table for the C9 witness (the spec's merge-drop scenario). -/
def aC9 : Table :=
  { cols := ["time", "geo", "spend"],
    rows := [[.date 0, .str "A", .num 1], [.date 1, .str "A", .num 2],
             [.date 0, .str "A", .num 3]] }

/-- Right table for the C9 witness. -/
def bC9 : Table :=
  { cols := ["time", "geo", "x"], rows := [[.date 0, .str "A", .num 9]] }

/-- Deduplicated left witness table. -/
def daC9 : Table :=
  (dedupTable (mergeColsFor "time" aC9 bC9) aC9).getD { cols := [], rows := [] }

/-- Deduplicated right witness table. -/
def dbC9 : Table :=
  (dedupTable (mergeColsFor "time" aC9 bC9) bC9).getD { cols := [], rows := [] }

/-- C9, witness: duplicate (date, geo) keys on the left, one matching key
on the right. -/
theorem C9_join_uniqueness_witness :
    (daC9.rows.map (rowKey (keyIdxsOf (mergeColsFor "time" aC9 bC9) aC9.cols))).Nodup ∧
    (dbC9.rows.map (rowKey (keyIdxsOf (mergeColsFor "time" aC9 bC9) bC9.cols))).Nodup ∧
    (∀ r ∈ daC9.rows, aC9.rows.find? (fun x =>
      rowKey (keyIdxsOf (mergeColsFor "time" aC9 bC9) aC9.cols) x =
        rowKey (keyIdxsOf (mergeColsFor "time" aC9 bC9) aC9.cols) r) = some r) ∧
    (∀ r ∈ dbC9.rows, bC9.rows.find? (fun x =>
      rowKey (keyIdxsOf (mergeColsFor "time" aC9 bC9) bC9.cols) x =
        rowKey (keyIdxsOf (mergeColsFor "time" aC9 bC9) bC9.cols) r) = some r) ∧
    ((mergeInner (mergeColsFor "time" aC9 bC9) daC9 dbC9).rows.map
      (rowKey (keyIdxsOf (mergeColsFor "time" aC9 bC9) aC9.cols))).Nodup ∧
    (∀ m ∈ (mergeInner (mergeColsFor "time" aC9 bC9) daC9 dbC9).rows,
      rowKey (keyIdxsOf (mergeColsFor "time" aC9 bC9) aC9.cols) m ∈
        aC9.rows.map (rowKey (keyIdxsOf (mergeColsFor "time" aC9 bC9) aC9.cols)) ∧
      rowKey (keyIdxsOf (mergeColsFor "time" aC9 bC9) aC9.cols) m ∈
        bC9.rows.map (rowKey (keyIdxsOf (mergeColsFor "time" aC9 bC9) bC9.cols))) :=
  C9_join_uniqueness "time" aC9 bC9 daC9 dbC9 (by decide) (by decide) (by decide)

/-! ### Claim C4: the no-missing postcondition of `main` -/

/-- The run configuration of `main` relevant to the merge pipeline. -/
structure Config where
  dateCol : String
  kpiCol : String
  revenueCol : String
  populationCol : String
  computePerConversion : Bool
  aggregateWeekly : Bool

/-- Date normalisation of `main` (lines 280-283): the date column of each
input frame is parsed with `pd.to_datetime` and re-formatted; unparseable
dates raise.  As in `ensure_regular_time_index`, the canonical string form
is modelled by the day number itself. -/
def normalizeDates (dateCol : String) (t : Table) : Option Table :=
  match t.cols.findIdx? (fun c => c = dateCol) with
  | none => none
  | some dIdx =>
    match t.rows.mapM (convDateCell dIdx) with
    | none => none
    | some rows => some { cols := t.cols, rows := rows }

/-- The geo column handed to the aggregation and regularisation steps:
`"geo" if "geo" in merged.columns else None`. -/
def geoOpt (t : Table) : Option String :=
  if "geo" ∈ t.cols then some "geo" else none

/-- Case-insensitive prefix test on character lists. -/
def leadMatch : List Char → List Char → Bool
  | [], _ => true
  | _ :: _, [] => false
  | p :: ps, c :: cs => (p.toLower == c.toLower) && leadMatch ps cs

/-- Case-insensitive substring test on character lists. -/
def hasSub (pat : List Char) : List Char → Bool
  | [] => leadMatch pat []
  | c :: cs => leadMatch pat (c :: cs) || hasSub pat cs

/-- `Series.str.contains(pat, case=False)` for a literal pattern. -/
def containsCI (s pat : String) : Bool := hasSub pat.data s.data

/-- The media-column predicate of `main` (lines 311-315): the column name
contains `impression`, `spend` or `investment`, case-insensitively. -/
def mediaLike (c : String) : Bool :=
  containsCI c "impression" || containsCI c "spend" || containsCI c "investment"

/-- `fillna(0.001)` on one cell. -/
def fillCell (v : Val) : Val := if v = Val.na then Val.num (1 / 1000) else v

/-- Media fill of `main` (lines 316-318): cells of media-like columns have
missing values replaced by `0.001`; other columns are untouched.  The frame
is rectangular, so rows are rebuilt positionally against the header. -/
def fillMediaCols (t : Table) : Table :=
  { cols := t.cols,
    rows := t.rows.map (fun r => (List.range t.cols.length).map (fun i =>
      if mediaLike (t.cols.getD i "") then fillCell (cellAt i r)
      else cellAt i r)) }

/-- Digit accumulator: reads decimal digits, failing on any other
character, returning the value and the number of digits read. -/
def parseDigitsAux : List Char → ℕ → ℕ → Option (ℕ × ℕ)
  | [], acc, k => some (acc, k)
  | c :: cs, acc, k =>
    if c.isDigit then parseDigitsAux cs (acc * 10 + (c.toNat - 48)) (k + 1)
    else none

/-- Split a character list at the first decimal point. -/
def splitDot : List Char → List Char × Option (List Char)
  | [] => ([], none)
  | c :: cs =>
    if c = '.' then ([], some cs)
    else
      let r := splitDot cs
      (c :: r.1, r.2)

/-- Unsigned decimal literal: digits with an optional fractional part, at
least one digit in total. -/
def parseUnsigned (s : List Char) : Option ℚ :=
  match splitDot s with
  | (ip, none) =>
    match parseDigitsAux ip 0 0 with
    | some (v, k) => if k = 0 then none else some (v : ℚ)
    | none => none
  | (ip, some fp) =>
    match parseDigitsAux ip 0 0, parseDigitsAux fp 0 0 with
    | some (vi, ki), some (vf, kf) =>
      if ki = 0 ∧ kf = 0 then none
      else some ((vi : ℚ) + (vf : ℚ) / ((10 : ℚ) ^ kf))
    | _, _ => none

/-- `pd.to_numeric` string parsing: an optionally signed decimal literal;
anything else fails. -/
def toNumeric (s : List Char) : Option ℚ :=
  match s with
  | '-' :: rest => (parseUnsigned rest).map (fun q => -q)
  | '+' :: rest => parseUnsigned rest
  | _ => parseUnsigned s

/-- `pd.to_numeric(errors="coerce")` on one cell: numbers pass through,
numeric-looking strings are parsed, everything else becomes missing.  (A
date cell would coerce to its underlying number; `main` never applies this
to the date column.) -/
def coerceCell (v : Val) : Val :=
  match v with
  | .num q => .num q
  | .str s =>
    match toNumeric s.data with
    | some q => .num q
    | none => .na
  | .date d => .num (d : ℚ)
  | .na => .na

/-- Numeric coercion of `main` (lines 320-325): every column other than the
date column is passed through `pd.to_numeric(errors="coerce")`. -/
def coerceNonDate (dateCol : String) (t : Table) : Table :=
  { cols := t.cols,
    rows := t.rows.map (fun r => (List.range t.cols.length).map (fun i =>
      if t.cols.getD i "" = dateCol then cellAt i r
      else coerceCell (cellAt i r))) }

/-- Final fill of `main` (lines 327-330): every remaining missing value
outside the date column becomes `0.001`. -/
def fillNonDate (dateCol : String) (t : Table) : Table :=
  { cols := t.cols,
    rows := t.rows.map (fun r => (List.range t.cols.length).map (fun i =>
      if t.cols.getD i "" = dateCol then cellAt i r
      else fillCell (cellAt i r))) }

/-- The `main` pipeline after loading (lines 271-330): key selection,
deduplication, date normalisation, inner merge, optional weekly
aggregation, time-index regularisation, population default, semantic
renaming, media fill, numeric coercion and final fill.  Any step that
raises in the source yields `none`. -/
def mainPipeline (cfg : Config) (a b : Table) : Option Table :=
  match dedupTable (mergeColsFor cfg.dateCol a b) a with
  | none => none
  | some da =>
    match dedupTable (mergeColsFor cfg.dateCol a b) b with
    | none => none
    | some db =>
      match normalizeDates cfg.dateCol da with
      | none => none
      | some ta =>
        match normalizeDates cfg.dateCol db with
        | none => none
        | some tb =>
          match (if cfg.aggregateWeekly then
              aggregate_weekly cfg.dateCol
                (geoOpt (mergeInner (mergeColsFor cfg.dateCol a b) ta tb))
                (mergeInner (mergeColsFor cfg.dateCol a b) ta tb)
            else some (mergeInner (mergeColsFor cfg.dateCol a b) ta tb)) with
          | none => none
          | some m2 =>
            match ensure_regular_time_index cfg.dateCol (geoOpt m2) m2 with
            | none => none
            | some m3 =>
              match rename_kpi_columns cfg.kpiCol cfg.revenueCol
                  cfg.populationCol cfg.computePerConversion
                  (addPopulationIfMissing m3) with
              | .error _ => none
              | .ok m5 =>
                some (fillNonDate cfg.dateCol
                  (coerceNonDate cfg.dateCol (fillMediaCols m5)))

theorem fillCell_ne_na (v : Val) : fillCell v ≠ Val.na := by
  rw [fillCell]
  split
  · exact fun hc => Val.noConfusion hc
  · assumption

theorem fillNonDate_no_na (dateCol : String) (t : Table) :
    ∀ i, i < (fillNonDate dateCol t).cols.length →
      (fillNonDate dateCol t).cols.getD i "" ≠ dateCol →
      ∀ r ∈ (fillNonDate dateCol t).rows, cellAt i r ≠ Val.na := by
  intro i hi hne r hr
  simp only [fillNonDate] at hi hne hr
  obtain ⟨r0, _, hr0⟩ := List.mem_map.mp hr
  rw [← hr0, cellAt, getD_map_range _ _ _ _ hi, if_neg hne]
  exact fillCell_ne_na _

/-- C4.  Whenever the pipeline completes, every cell of every column whose
name differs from the date column name is non-missing: the numeric
coercion leaves missing values only where a cell failed to convert, and
the final `fillna(0.001)` on all non-date columns replaces each of them
with `0.001`. -/
theorem C4_no_missing (cfg : Config) (a b out : Table)
    (h : mainPipeline cfg a b = some out) :
    ∀ i, i < out.cols.length → out.cols.getD i "" ≠ cfg.dateCol →
      ∀ r ∈ out.rows, cellAt i r ≠ Val.na := by
  rw [mainPipeline] at h
  split at h
  · exact Option.noConfusion h
  split at h
  · exact Option.noConfusion h
  split at h
  · exact Option.noConfusion h
  split at h
  · exact Option.noConfusion h
  split at h
  · exact Option.noConfusion h
  split at h
  · exact Option.noConfusion h
  split at h
  · exact Option.noConfusion h
  rw [← Option.some.inj h]
  exact fillNonDate_no_na _ _

/-- Configuration for the C4 witness: canonical column names, no weekly
aggregation, no per-conversion computation. -/
def cfgC4 : Config :=
  { dateCol := "time", kpiCol := "kpi_src", revenueCol := "rev_src",
    populationCol := "pop_src", computePerConversion := false,
    aggregateWeekly := false }

/-- Left input table for the C4 witness. -/
def aC4 : Table :=
  { cols := ["time", "geo", "spend"], rows := [[.date 0, .str "A", .num 1]] }

/-- Right input table for the C4 witness. -/
def bC4 : Table :=
  { cols := ["time", "geo", "conversions", "revenue_per_conversion"],
    rows := [[.date 0, .str "A", .num 2, .num 3]] }

/-- Output of the pipeline at the C4 witness inputs. -/
def outC4 : Table :=
  (mainPipeline cfgC4 aC4 bC4).getD { cols := [], rows := [] }

/-- C4, witness: the pipeline completes on the witness inputs and the geo
cell of the output — coerced to missing by `to_numeric` and then filled —
is non-missing. -/
theorem C4_no_missing_witness :
    mainPipeline cfgC4 aC4 bC4 = some outC4 ∧
    cellAt 1 (outC4.rows.getD 0 []) ≠ Val.na :=
  ⟨rfl, C4_no_missing cfgC4 aC4 bC4 outC4 rfl 1 (by decide) (by decide)
    (outC4.rows.getD 0 []) (List.Mem.head _)⟩

end Meridian
